import Mathlib

/-!
# Hospital management console program: embedding and verification

Shallow embedding of `file.cpp`.

* `std::cout` is a list of `Out` events, one per `<<` operand.
* `std::cin` is a list of whitespace separated `Token`s.  A formatted read that would
  fail (no token left, a word where a number is expected, a number that does not fit
  an `int`) yields `Fault.input`: the program's behaviour is not defined by the text
  of the program from that point on and no result is produced.
* `int` values are `Int`; they only ever enter through `cinInt`, which keeps them inside
  the 32-bit range, and the only arithmetic on them is `capacity--` under `capacity > 0`
  and `choice - 1` under `choice > 0`, neither of which can leave the range.
* `float` values that occur are non-negative integers; they are held as `Nat` and every
  addition rounds to the nearest value with a 24-bit significand, ties to even.  An
  `Out.float` event carries the value streamed; `printedFloat` gives the number its text
  denotes under the default format of the stream.
* `do ... while` loops recurse on a fuel counter; the entry points supply one more unit
  of fuel than there are tokens, and every iteration consumes a token.
-/

deriving instance DecidableEq for Except

namespace Hospital

/-! ## Console -/

/-- One operand streamed to `std::cout`. -/
inductive Out where
  | text (s : String)
  | int (v : Int)
  | size (v : Nat)
  | float (v : Nat)
  | endl
  deriving DecidableEq, Repr

/-- One whitespace separated token waiting on `std::cin`. -/
inductive Token where
  | num (v : Int)
  | word (s : String)
  deriving DecidableEq, Repr

/-- Ways in which a run leaves the behaviour fixed by the program text. -/
inductive Fault where
  | input
  | index
  | fuel
  deriving DecidableEq, Repr

def INT_MIN : Int := -2147483648

def INT_MAX : Int := 2147483647

/-- The characters of a token, as `cin >> std::string` stores them. -/
def Token.text : Token → String
  | .num v => toString v
  | .word s => s

/-- The read `cin >> x` for `int x`. -/
def cinInt : List Token → Except Fault (Int × List Token)
  | .num v :: rest => if INT_MIN ≤ v ∧ v ≤ INT_MAX then .ok (v, rest) else .error .input
  | _ => .error .input

/-- The read `cin >> s` for `std::string s`. -/
def cinString : List Token → Except Fault (String × List Token)
  | t :: rest => .ok (t.text, rest)
  | [] => .error .input

/-- Conversion of an `int` to `size_t` (64 bit), as the usual arithmetic conversions do
when an `int` is compared with `vector::size()`. -/
def toSizeT (v : Int) : Nat := (v % 18446744073709551616).toNat

/-! ## Single precision addition on integral values -/

/-- Number of low bits a natural number loses when it is cut to 24 significant bits:
the least `e` with `n / 2 ^ e < 2 ^ 24` (found within `fuel` halvings). -/
def ulpExp : Nat → Nat → Nat
  | 0, _ => 0
  | fuel + 1, n => if n < 16777216 then 0 else ulpExp fuel (n / 2) + 1

/-- Nearest single precision value of a natural number (24-bit significand, ties to
even).  Numbers below `2 ^ 128`, which is all the program can reach, stay finite. -/
def roundF32 (n : Nat) : Nat :=
  if n < 16777216 then n
  else
    let e := ulpExp n n
    let q := n / 2 ^ e
    let r := n % 2 ^ e
    let half := 2 ^ e / 2
    let q1 := if r < half then q else if half < r then q + 1 else if q % 2 = 0 then q else q + 1
    q1 * 2 ^ e

/-- The `float` sum `a + b`. -/
def f32Add (a b : Nat) : Nat := roundF32 (a + b)

/-- Power of ten that cuts a natural number to six significant decimal digits: the least
`10 ^ k` with `v / 10 ^ k < 10 ^ 6` (found within `fuel` divisions). -/
def sigScale : Nat → Nat → Nat
  | 0, _ => 1
  | fuel + 1, v => if v < 1000000 then 1 else 10 * sigScale fuel (v / 10)

/-- The number that the text written by `cout << x` denotes, for a `float x` of integral
value `v`.  The program never touches the stream's format, so the text has six
significant digits (plain digits below `10 ^ 6`, scientific notation from there on), the
value being rounded to them, ties to even. -/
def printedFloat (v : Nat) : Nat :=
  let s := sigScale v v
  let q := v / s
  let r := v % s
  let q1 := if 2 * r < s then q else if s < 2 * r then q + 1 else if q % 2 = 0 then q else q + 1
  q1 * s

/-! ## WelcomeScreen -/

def WelcomeScreen.display : List Out :=
  [.text "**** Welcome to XYZ Hospital Management System ****", .endl,
   .text "[1] Hospital Services", .endl,
   .text "[2] Cafe", .endl,
   .text "[0] Exit", .endl]

/-! ## Bed managers -/

/-- The abstract class `IBedManager` over an object state `σ`: `showCapacity` is `const`
and only prints, `allocateBed` returns its result, the new state and what it printed. -/
structure IBedManager (σ : Type) where
  showCapacity : σ → List Out
  allocateBed : σ → Bool × σ × List Out

def GeneralBedManager.showCapacity (capacity : Int) : List Out :=
  [.text "Available General Beds: ", .int capacity, .endl]

def GeneralBedManager.allocateBed (capacity : Int) : Bool × Int × List Out :=
  if capacity > 0 then (true, capacity - 1, [])
  else (false, capacity, [.text "No general beds available!", .endl])

/-- The class `GeneralBedManager`; its state is the member `capacity`. -/
def GeneralBedManager : IBedManager Int where
  showCapacity := GeneralBedManager.showCapacity
  allocateBed := GeneralBedManager.allocateBed

def ICUBedManager.showCapacity (icuBeds : Int) : List Out :=
  [.text "Available ICU Beds: ", .int icuBeds, .endl]

def ICUBedManager.allocateBed (icuBeds : Int) : Bool × Int × List Out :=
  if icuBeds > 0 then (true, icuBeds - 1, [])
  else (false, icuBeds, [.text "No ICU beds available!", .endl])

/-- The class `ICUBedManager`; its state is the member `icuBeds`. -/
def ICUBedManager : IBedManager Int where
  showCapacity := ICUBedManager.showCapacity
  allocateBed := ICUBedManager.allocateBed

/-! ## Patient -/

/-- The data members of `Patient` other than the manager reference; `age` and `id` hold
no value until the first registration. -/
structure Patient where
  name : String
  age : Option Int
  id : Option Int
  deriving DecidableEq, Repr

/-- State after constructing `Patient patient(bedManager)`. -/
def Patient.new : Patient := { name := "", age := none, id := none }

/-- Outcome of a call that talks to the console and to the bed manager. -/
structure Res (σ : Type) where
  bm : σ
  out : List Out
  input : List Token
  deriving DecidableEq, Repr

/-- Put `o` in front of what a call printed. -/
def Res.prepend {σ : Type} (o : List Out) (r : Res σ) : Res σ :=
  { r with out := o ++ r.out }

def Patient.registerPatient {σ : Type} (M : IBedManager σ) (bm : σ) (_self : Patient)
    (input : List Token) : Except Fault (Patient × Res σ) :=
  match cinString input with
  | .error e => .error e
  | .ok (name, input) =>
    match cinInt input with
    | .error e => .error e
    | .ok (age, input) =>
      match cinInt input with
      | .error e => .error e
      | .ok (id, input) =>
        let prompts : List Out :=
          [.text "Enter Name: ", .text "Enter Age: ", .text "Enter Patient ID: "]
        let a := M.allocateBed bm
        let said : List Out :=
          if a.1 then [.text "Patient Registered Successfully!", .endl] else []
        .ok ({ name := name, age := some age, id := some id },
             { bm := a.2.1, out := prompts ++ a.2.2 ++ said, input := input })

/-! ## HospitalService -/

def HospitalService.menu : List Out :=
  [.text "[1] Register Patient", .endl,
   .text "[2] View Bed Capacity", .endl,
   .text "[0] Back to Main Menu", .endl,
   .text "Enter Choice: "]

/-- The `do ... while (subChoice != 0)` loop of `HospitalService::execute`. -/
def HospitalService.executeLoop {σ : Type} (M : IBedManager σ) :
    Nat → σ → Patient → List Token → Except Fault (Res σ)
  | 0, _, _, _ => .error .fuel
  | fuel + 1, bm, patient, input =>
    match cinInt input with
    | .error e => .error e
    | .ok (subChoice, input) =>
      let body : Except Fault (Patient × Res σ) :=
        if subChoice = 1 then patient.registerPatient M bm input
        else if subChoice = 2 then
          .ok (patient, { bm := bm, out := M.showCapacity bm, input := input })
        else if subChoice ≠ 0 then
          .ok (patient, { bm := bm, out := [.text "Invalid Choice!", .endl], input := input })
        else .ok (patient, { bm := bm, out := [], input := input })
      match body with
      | .error e => .error e
      | .ok (patient, r) =>
        if subChoice ≠ 0 then
          (HospitalService.executeLoop M fuel r.bm patient r.input).map
            (Res.prepend (HospitalService.menu ++ r.out))
        else .ok (r.prepend HospitalService.menu)

def HospitalService.execute {σ : Type} (M : IBedManager σ) (bm : σ) (input : List Token) :
    Except Fault (Res σ) :=
  HospitalService.executeLoop M (input.length + 1) bm Patient.new input

/-! ## Cafe -/

/-- The struct `CafeMenu::Item`; `price` is a `float` holding an integral value. -/
structure CafeMenu.Item where
  name : String
  price : Nat
  deriving DecidableEq, Repr

def CafeMenu.menu : List CafeMenu.Item :=
  [⟨"Tea", 450⟩, ⟨"Coffee", 550⟩, ⟨"Sandwich", 600⟩, ⟨"Cookie", 400⟩]

/-- The `for` loop of `CafeMenu::displayMenu`, from index `i` over the items left. -/
def CafeMenu.displayItems : Nat → List CafeMenu.Item → List Out
  | _, [] => []
  | i, item :: items =>
    [.text "[", .size (i + 1), .text "] ", .text item.name, .text " - Rs. ",
     .float item.price, .endl] ++ CafeMenu.displayItems (i + 1) items

def CafeMenu.displayMenu : List Out :=
  CafeMenu.displayItems 0 CafeMenu.menu ++ [.text "[0] Checkout", .endl]

/-- Outcome of `CafeOrder::placeOrder`: the member `total`, the output, the input left. -/
structure CafeRes where
  total : Nat
  out : List Out
  input : List Token
  deriving DecidableEq, Repr

def CafeRes.prepend (o : List Out) (r : CafeRes) : CafeRes :=
  { r with out := o ++ r.out }

/-- The `do ... while (choice != 0)` loop of `CafeOrder::placeOrder` together with the
final `Total Bill` line. -/
def CafeOrder.placeOrderLoop : Nat → Nat → List Token → Except Fault CafeRes
  | 0, _, _ => .error .fuel
  | fuel + 1, total, input =>
    match cinInt input with
    | .error e => .error e
    | .ok (choice, input) =>
      let shown : List Out := CafeMenu.displayMenu ++ [.text "Select Item: "]
      let body : Except Fault (Nat × List Out) :=
        if choice > 0 ∧ toSizeT choice ≤ CafeMenu.menu.length then
          match CafeMenu.menu.get? (toSizeT (choice - 1)) with
          | some item => .ok (f32Add total item.price, [])
          | none => .error .index
        else if choice ≠ 0 then .ok (total, [.text "Invalid Choice!", .endl])
        else .ok (total, [])
      match body with
      | .error e => .error e
      | .ok (total, said) =>
        if choice ≠ 0 then
          (CafeOrder.placeOrderLoop fuel total input).map (CafeRes.prepend (shown ++ said))
        else
          .ok { total := total,
                out := shown ++ said ++ [.text "Total Bill: Rs. ", .float total, .endl],
                input := input }

/-- The method `CafeOrder::placeOrder` on an order whose member `total` is `total`. -/
def CafeOrder.placeOrder (total : Nat) (input : List Token) : Except Fault CafeRes :=
  CafeOrder.placeOrderLoop (input.length + 1) total input

/-- The method `CafeService::execute`: a fresh `CafeOrder` (total 0) places one order.
The bed manager is not reachable from here and is handed back untouched. -/
def CafeService.execute {σ : Type} (bm : σ) (input : List Token) : Except Fault (Res σ) :=
  match CafeOrder.placeOrder 0 input with
  | .error e => .error e
  | .ok r => .ok { bm := bm, out := r.out, input := r.input }

/-! ## HospitalManagementSystem -/

/-- The concrete classes behind an `IService*`. -/
inductive IService where
  | hospitalService
  | cafeService
  deriving DecidableEq, Repr

/-- Virtual dispatch of `IService::execute`. -/
def IService.execute {σ : Type} (M : IBedManager σ) :
    IService → σ → List Token → Except Fault (Res σ)
  | .hospitalService, bm, input => HospitalService.execute M bm input
  | .cafeService, bm, input => CafeService.execute bm input

/-- The vector `services` as the constructor fills it. -/
def HospitalManagementSystem.services : List IService :=
  [.hospitalService, .cafeService]

/-- The `do ... while (choice != 0)` loop of `HospitalManagementSystem::run` together with
the farewell line. -/
def HospitalManagementSystem.runLoop {σ : Type} (M : IBedManager σ) :
    Nat → σ → List Token → Except Fault (Res σ)
  | 0, _, _ => .error .fuel
  | fuel + 1, bm, input =>
    match cinInt input with
    | .error e => .error e
    | .ok (choice, input) =>
      let shown : List Out := WelcomeScreen.display ++ [.text "Enter Your Choice: ", .endl]
      let body : Except Fault (Res σ) :=
        if choice > 0 ∧ toSizeT choice ≤ HospitalManagementSystem.services.length then
          match HospitalManagementSystem.services.get? (toSizeT (choice - 1)) with
          | some service => service.execute M bm input
          | none => .error .index
        else if choice ≠ 0 then
          .ok { bm := bm, out := [.text "Invalid Option! Try again.", .endl], input := input }
        else .ok { bm := bm, out := [], input := input }
      match body with
      | .error e => .error e
      | .ok r =>
        if choice ≠ 0 then
          (HospitalManagementSystem.runLoop M fuel r.bm r.input).map
            (Res.prepend (shown ++ r.out))
        else
          .ok { bm := r.bm,
                out := shown ++ r.out ++ [.text "Exiting... Thank you!", .endl],
                input := r.input }

def HospitalManagementSystem.run {σ : Type} (M : IBedManager σ) (bm : σ)
    (input : List Token) : Except Fault (Res σ) :=
  HospitalManagementSystem.runLoop M (input.length + 1) bm input

/-- The function `main`: a general ward of 500 beds behind the top level menu. -/
def main (input : List Token) : Except Fault (Res Int) :=
  HospitalManagementSystem.run GeneralBedManager 500 input

/-! ## Vocabulary of the statements -/

/-- Catalog price at the 1-based menu position `i` (0 where the menu has no such
position). -/
def CafeMenu.priceAt (i : Int) : Nat :=
  if 1 ≤ i then
    match CafeMenu.menu.get? (i - 1).toNat with
    | some item => item.price
    | none => 0
  else 0

/-- The output `o` written `n` times in a row. -/
def Out.times : Nat → List Out → List Out
  | 0, _ => []
  | n + 1, o => o ++ Out.times n o

/-- What `placeOrder` prints before each read: the menu and the prompt. -/
def CafeOrder.shown : List Out := CafeMenu.displayMenu ++ [.text "Select Item: "]

/-- What `run` prints around each read: the welcome screen, the prompt and a newline. -/
def HospitalManagementSystem.shown : List Out :=
  WelcomeScreen.display ++ [.text "Enter Your Choice: ", .endl]

/-- The single precision running total of `placeOrder` after the valid selections
`sels`, starting from `total`. -/
def CafeOrder.totalAfter (total : Nat) (sels : List Int) : Nat :=
  sels.foldl (fun t i => f32Add t (CafeMenu.priceAt i)) total

/-- A selection `placeOrder` acts on: the checkout 0 or a menu position. -/
def CafeOrder.accepted (c : Int) : Bool := decide (c = 0 ∨ (1 ≤ c ∧ c ≤ 4))

/-- A call made on a bed manager through the `IBedManager` interface. -/
inductive Call where
  | allocateBed
  | showCapacity
  deriving DecidableEq, Repr

/-- Result of one interface call: the returned flag (for `allocateBed`), the state left
behind and the output. -/
def IBedManager.call {σ : Type} (M : IBedManager σ) (bm : σ) : Call → Option Bool × σ × List Out
  | .allocateBed => (some (M.allocateBed bm).1, (M.allocateBed bm).2.1, (M.allocateBed bm).2.2)
  | .showCapacity => (none, bm, M.showCapacity bm)

/-- State of a bed manager after a sequence of interface calls. -/
def IBedManager.after {σ : Type} (M : IBedManager σ) (bm : σ) : List Call → σ
  | [] => bm
  | c :: cs => IBedManager.after M (M.call bm c).2.1 cs

/-- For every call of a sequence: the returned flag, the state after it, its output. -/
def IBedManager.trace {σ : Type} (M : IBedManager σ) (bm : σ) :
    List Call → List (Option Bool × σ × List Out)
  | [] => []
  | c :: cs => M.call bm c :: IBedManager.trace M (M.call bm c).2.1 cs

/-- Results and final state of `n` consecutive `allocateBed` calls. -/
def IBedManager.allocateTimes {σ : Type} (M : IBedManager σ) : Nat → σ → List Bool × σ
  | 0, bm => ([], bm)
  | n + 1, bm =>
    let a := M.allocateBed bm
    let r := IBedManager.allocateTimes M n a.2.1
    (a.1 :: r.1, r.2)

/-- Exchange of the ward label in a printed operand: the two texts of the general ward
become those of the intensive care ward, everything else is kept. -/
def relabel : Out → Out
  | .text s =>
    if s = "Available General Beds: " then .text "Available ICU Beds: "
    else if s = "No general beds available!" then .text "No ICU beds available!"
    else .text s
  | o => o

/-- One operator action at the hospital menu, with the tokens typed for it. -/
inductive MenuInput where
  | register (name : Token) (age id : Int)
  | view
  | other (c : Int)
  deriving DecidableEq, Repr

/-- The tokens the operator types for an action. -/
def MenuInput.tokens : MenuInput → List Token
  | .register name age id => [.num 1, name, .num age, .num id]
  | .view => [.num 2]
  | .other c => [.num c]

/-- The action can be typed: numbers fit an `int`, and `other` is none of 0, 1, 2. -/
def MenuInput.wf : MenuInput → Prop
  | .register _ age id => (INT_MIN ≤ age ∧ age ≤ INT_MAX) ∧ (INT_MIN ≤ id ∧ id ≤ INT_MAX)
  | .view => True
  | .other c => (INT_MIN ≤ c ∧ c ≤ INT_MAX) ∧ c ≠ 0 ∧ c ≠ 1 ∧ c ≠ 2

instance MenuInput.decideWf (a : MenuInput) : Decidable a.wf :=
  match a with
  | .register _ age id =>
    inferInstanceAs
      (Decidable ((INT_MIN ≤ age ∧ age ≤ INT_MAX) ∧ (INT_MIN ≤ id ∧ id ≤ INT_MAX)))
  | .view => inferInstanceAs (Decidable True)
  | .other c =>
    inferInstanceAs (Decidable ((INT_MIN ≤ c ∧ c ≤ INT_MAX) ∧ c ≠ 0 ∧ c ≠ 1 ∧ c ≠ 2))

/-- The tokens of a whole session, action after action. -/
def MenuInput.session : List MenuInput → List Token
  | [] => []
  | a :: as => a.tokens ++ MenuInput.session as

/-- Number of `register` actions in a session. -/
def MenuInput.registrations : List MenuInput → Nat
  | [] => 0
  | .register _ _ _ :: as => MenuInput.registrations as + 1
  | _ :: as => MenuInput.registrations as

/-- The menu state machine as the specification words it: from ShowMenu, input 1 runs
the register flow (one allocation attempt, confirmation on success), input 2 runs the
capacity flow, any other input reports an invalid choice; each returns to ShowMenu.
Gives the bed manager state and the output of one such round. -/
def HospitalMenu.step {σ : Type} (M : IBedManager σ) (bm : σ) : MenuInput → σ × List Out
  | .register _ _ _ =>
    ((M.allocateBed bm).2.1,
     HospitalService.menu ++
       [.text "Enter Name: ", .text "Enter Age: ", .text "Enter Patient ID: "] ++
       (M.allocateBed bm).2.2 ++
       (if (M.allocateBed bm).1 then [.text "Patient Registered Successfully!", .endl] else []))
  | .view => (bm, HospitalService.menu ++ M.showCapacity bm)
  | .other _ => (bm, HospitalService.menu ++ [.text "Invalid Choice!", .endl])

/-- The specification's state machine run over a session that ends with input 0 (Exit):
final bed manager state and everything printed, the last menu included. -/
def HospitalMenu.run {σ : Type} (M : IBedManager σ) (bm : σ) : List MenuInput → σ × List Out
  | [] => (bm, HospitalService.menu)
  | a :: as =>
    ((HospitalMenu.run M (HospitalMenu.step M bm a).1 as).1,
     (HospitalMenu.step M bm a).2 ++ (HospitalMenu.run M (HospitalMenu.step M bm a).1 as).2)

/-! ## Bed managers: allocation contract -/

theorem general_allocateBed_eq :
    IBedManager.allocateBed GeneralBedManager = GeneralBedManager.allocateBed := rfl

theorem general_showCapacity_eq :
    IBedManager.showCapacity GeneralBedManager = GeneralBedManager.showCapacity := rfl

theorem icu_allocateBed_eq :
    IBedManager.allocateBed ICUBedManager = ICUBedManager.allocateBed := rfl

theorem icu_showCapacity_eq :
    IBedManager.showCapacity ICUBedManager = ICUBedManager.showCapacity := rfl

theorem general_allocate_pos (c : Int) (h : 0 < c) :
    GeneralBedManager.allocateBed c = (true, c - 1, []) := by
  simp [GeneralBedManager.allocateBed, h]

theorem general_allocate_nonpos (c : Int) (h : c ≤ 0) :
    GeneralBedManager.allocateBed c =
      (false, c, [.text "No general beds available!", .endl]) := by
  have h1 : ¬ c > 0 := not_lt.mpr h
  simp [GeneralBedManager.allocateBed, h1]

theorem icu_allocate_pos (c : Int) (h : 0 < c) :
    ICUBedManager.allocateBed c = (true, c - 1, []) := by
  simp [ICUBedManager.allocateBed, h]

theorem icu_allocate_nonpos (c : Int) (h : c ≤ 0) :
    ICUBedManager.allocateBed c = (false, c, [.text "No ICU beds available!", .endl]) := by
  have h1 : ¬ c > 0 := not_lt.mpr h
  simp [ICUBedManager.allocateBed, h1]

/-- C1: on a bed manager holding capacity `c`, `allocateBed` returns true, leaves
`c - 1` and prints nothing when `c > 0`; when `c <= 0` it returns false, prints its
"no beds available" line and leaves the capacity at `c`.  Both classes. -/
theorem allocateBed_contract (c : Int) :
    (0 < c →
      GeneralBedManager.allocateBed c = (true, c - 1, []) ∧
      ICUBedManager.allocateBed c = (true, c - 1, [])) ∧
    (c ≤ 0 →
      GeneralBedManager.allocateBed c =
        (false, c, [.text "No general beds available!", .endl]) ∧
      ICUBedManager.allocateBed c =
        (false, c, [.text "No ICU beds available!", .endl])) :=
  ⟨fun h => ⟨general_allocate_pos c h, icu_allocate_pos c h⟩,
   fun h => ⟨general_allocate_nonpos c h, icu_allocate_nonpos c h⟩⟩

theorem allocateBed_contract_witness :
    (GeneralBedManager.allocateBed 2 = (true, 1, []) ∧
      ICUBedManager.allocateBed 2 = (true, 1, [])) ∧
    (GeneralBedManager.allocateBed 0 =
        (false, 0, [.text "No general beds available!", .endl]) ∧
      ICUBedManager.allocateBed 0 = (false, 0, [.text "No ICU beds available!", .endl])) :=
  ⟨(allocateBed_contract 2).1 (by decide), (allocateBed_contract 0).2 (by decide)⟩

/-! ## Bed managers: counting down -/

theorem general_allocateTimes (n : Nat) :
    ∀ c : Int, (n : Int) ≤ c →
      IBedManager.allocateTimes GeneralBedManager n c = (List.replicate n true, c - n) := by
  induction n with
  | zero => intro c _; simp [IBedManager.allocateTimes]
  | succ k ih =>
    intro c hc
    have hpos : 0 < c := by push_cast at hc; omega
    have hk : (k : Int) ≤ c - 1 := by push_cast at hc; omega
    have ha : GeneralBedManager.allocateBed c = (true, c - 1, []) :=
      general_allocate_pos c hpos
    have he : c - 1 - (k : Int) = c - ((k + 1 : Nat) : Int) := by push_cast; omega
    simp only [IBedManager.allocateTimes, general_allocateBed_eq, ha, ih (c - 1) hk,
      List.replicate_succ, he]

theorem icu_allocateTimes (n : Nat) :
    ∀ c : Int, (n : Int) ≤ c →
      IBedManager.allocateTimes ICUBedManager n c = (List.replicate n true, c - n) := by
  induction n with
  | zero => intro c _; simp [IBedManager.allocateTimes]
  | succ k ih =>
    intro c hc
    have hpos : 0 < c := by push_cast at hc; omega
    have hk : (k : Int) ≤ c - 1 := by push_cast at hc; omega
    have ha : ICUBedManager.allocateBed c = (true, c - 1, []) := icu_allocate_pos c hpos
    have he : c - 1 - (k : Int) = c - ((k + 1 : Nat) : Int) := by push_cast; omega
    simp only [IBedManager.allocateTimes, icu_allocateBed_eq, ha, ih (c - 1) hk,
      List.replicate_succ, he]

theorem general_exhaust (n : Nat) :
    ∀ c : Int, c = n →
      IBedManager.allocateTimes GeneralBedManager (n + 1) c =
        (List.replicate n true ++ [false], 0) := by
  induction n with
  | zero =>
    intro c hc
    subst hc
    simp [IBedManager.allocateTimes, general_allocateBed_eq, GeneralBedManager.allocateBed]
  | succ k ih =>
    intro c hc
    have hpos : 0 < c := by push_cast at hc; omega
    have hk : c - 1 = (k : Int) := by push_cast at hc; omega
    have ha := general_allocate_pos c hpos
    have hi := ih (c - 1) hk
    rw [IBedManager.allocateTimes]
    simp only [general_allocateBed_eq, ha, hi, List.replicate_succ, List.cons_append]

theorem icu_exhaust (n : Nat) :
    ∀ c : Int, c = n →
      IBedManager.allocateTimes ICUBedManager (n + 1) c =
        (List.replicate n true ++ [false], 0) := by
  induction n with
  | zero =>
    intro c hc
    subst hc
    simp [IBedManager.allocateTimes, icu_allocateBed_eq, ICUBedManager.allocateBed]
  | succ k ih =>
    intro c hc
    have hpos : 0 < c := by push_cast at hc; omega
    have hk : c - 1 = (k : Int) := by push_cast at hc; omega
    have ha := icu_allocate_pos c hpos
    have hi := ih (c - 1) hk
    rw [IBedManager.allocateTimes]
    simp only [icu_allocateBed_eq, ha, hi, List.replicate_succ, List.cons_append]

/-- C2: a pool built with capacity `C >= 0` answers its first `N <= C` consecutive
`allocateBed` calls with true and is left with exactly `C - N`; after `C` successful
calls the next call returns false and the capacity stays 0.  Both classes. -/
theorem allocate_counts_down (C : Int) (N : Nat) (hC : 0 ≤ C) (hN : (N : Int) ≤ C) :
    IBedManager.allocateTimes GeneralBedManager N C = (List.replicate N true, C - N) ∧
    IBedManager.allocateTimes ICUBedManager N C = (List.replicate N true, C - N) ∧
    IBedManager.allocateTimes GeneralBedManager (C.toNat + 1) C =
      (List.replicate C.toNat true ++ [false], 0) ∧
    IBedManager.allocateTimes ICUBedManager (C.toNat + 1) C =
      (List.replicate C.toNat true ++ [false], 0) :=
  ⟨general_allocateTimes N C hN, icu_allocateTimes N C hN,
   general_exhaust C.toNat C (Int.toNat_of_nonneg hC).symm,
   icu_exhaust C.toNat C (Int.toNat_of_nonneg hC).symm⟩

theorem allocate_counts_down_witness :
    (0 : Int) ≤ 2 ∧ ((2 : Nat) : Int) ≤ 2 ∧
    IBedManager.allocateTimes GeneralBedManager 2 2 = ([true, true], 0) ∧
    IBedManager.allocateTimes GeneralBedManager 3 2 = ([true, true, false], 0) :=
  ⟨by decide, by decide, (allocate_counts_down 2 2 (by decide) (by decide)).1,
   (allocate_counts_down 2 2 (by decide) (by decide)).2.2.1⟩

/-! ## Bed managers: invariant and equivalence of the two classes -/

theorem general_call_nonneg (s : Int) (hs : 0 ≤ s) (k : Call) :
    0 ≤ (IBedManager.call GeneralBedManager s k).2.1 := by
  cases k with
  | showCapacity => simpa [IBedManager.call] using hs
  | allocateBed =>
    simp only [IBedManager.call, general_allocateBed_eq, GeneralBedManager.allocateBed]
    split <;> simp <;> omega

theorem icu_call_nonneg (s : Int) (hs : 0 ≤ s) (k : Call) :
    0 ≤ (IBedManager.call ICUBedManager s k).2.1 := by
  cases k with
  | showCapacity => simpa [IBedManager.call] using hs
  | allocateBed =>
    simp only [IBedManager.call, icu_allocateBed_eq, ICUBedManager.allocateBed]
    split <;> simp <;> omega

theorem general_after_nonneg (calls : List Call) :
    ∀ s : Int, 0 ≤ s → 0 ≤ IBedManager.after GeneralBedManager s calls := by
  induction calls with
  | nil => intro s hs; simpa [IBedManager.after] using hs
  | cons k ks ih =>
    intro s hs
    simp only [IBedManager.after]
    exact ih _ (general_call_nonneg s hs k)

theorem icu_after_nonneg (calls : List Call) :
    ∀ s : Int, 0 ≤ s → 0 ≤ IBedManager.after ICUBedManager s calls := by
  induction calls with
  | nil => intro s hs; simpa [IBedManager.after] using hs
  | cons k ks ih =>
    intro s hs
    simp only [IBedManager.after]
    exact ih _ (icu_call_nonneg s hs k)

theorem general_change_success (s : Int) (k : Call)
    (h : (IBedManager.call GeneralBedManager s k).2.1 ≠ s) :
    (IBedManager.call GeneralBedManager s k).1 = some true ∧
    (IBedManager.call GeneralBedManager s k).2.1 = s - 1 := by
  cases k with
  | showCapacity => simp [IBedManager.call] at h
  | allocateBed =>
    simp only [IBedManager.call, general_allocateBed_eq, GeneralBedManager.allocateBed] at h ⊢
    split <;> simp_all

theorem icu_change_success (s : Int) (k : Call)
    (h : (IBedManager.call ICUBedManager s k).2.1 ≠ s) :
    (IBedManager.call ICUBedManager s k).1 = some true ∧
    (IBedManager.call ICUBedManager s k).2.1 = s - 1 := by
  cases k with
  | showCapacity => simp [IBedManager.call] at h
  | allocateBed =>
    simp only [IBedManager.call, icu_allocateBed_eq, ICUBedManager.allocateBed] at h ⊢
    split <;> simp_all

/-- C3: a bed pool created with a non-negative capacity holds a capacity `>= 0` after any
finite sequence of `allocateBed` and `showCapacity` calls, and a further call changes the
capacity only if it is an `allocateBed` that returned true (the change being a decrement
by one).  Both classes. -/
theorem capacity_never_negative (c : Int) (hc : 0 ≤ c) (calls : List Call) (k : Call) :
    (0 ≤ IBedManager.after GeneralBedManager c calls ∧
      ((IBedManager.call GeneralBedManager (IBedManager.after GeneralBedManager c calls) k).2.1 ≠
          IBedManager.after GeneralBedManager c calls →
        (IBedManager.call GeneralBedManager (IBedManager.after GeneralBedManager c calls) k).1 =
          some true ∧
        (IBedManager.call GeneralBedManager (IBedManager.after GeneralBedManager c calls) k).2.1 =
          IBedManager.after GeneralBedManager c calls - 1)) ∧
    (0 ≤ IBedManager.after ICUBedManager c calls ∧
      ((IBedManager.call ICUBedManager (IBedManager.after ICUBedManager c calls) k).2.1 ≠
          IBedManager.after ICUBedManager c calls →
        (IBedManager.call ICUBedManager (IBedManager.after ICUBedManager c calls) k).1 =
          some true ∧
        (IBedManager.call ICUBedManager (IBedManager.after ICUBedManager c calls) k).2.1 =
          IBedManager.after ICUBedManager c calls - 1)) :=
  ⟨⟨general_after_nonneg calls c hc, general_change_success _ k⟩,
   ⟨icu_after_nonneg calls c hc, icu_change_success _ k⟩⟩

theorem capacity_never_negative_witness :
    (0 : Int) ≤ 1 ∧
    IBedManager.after GeneralBedManager 1
      [.allocateBed, .showCapacity, .allocateBed, .allocateBed] = 0 ∧
    0 ≤ IBedManager.after GeneralBedManager 1
      [.allocateBed, .showCapacity, .allocateBed, .allocateBed] ∧
    (IBedManager.call GeneralBedManager 1 .allocateBed).2.1 ≠ 1 ∧
    (IBedManager.call GeneralBedManager 1 .allocateBed).1 = some true :=
  ⟨by decide, by decide,
   (capacity_never_negative 1 (by decide)
      [.allocateBed, .showCapacity, .allocateBed, .allocateBed] .allocateBed).1.1,
   by decide,
   ((capacity_never_negative 1 (by decide) [] .allocateBed).1.2 (by decide)).1⟩

theorem icu_call_eq_general (s : Int) (k : Call) :
    IBedManager.call ICUBedManager s k =
      ((IBedManager.call GeneralBedManager s k).1,
       (IBedManager.call GeneralBedManager s k).2.1,
       (IBedManager.call GeneralBedManager s k).2.2.map relabel) := by
  cases k with
  | showCapacity =>
    simp [IBedManager.call, icu_showCapacity_eq, general_showCapacity_eq,
      ICUBedManager.showCapacity, GeneralBedManager.showCapacity, relabel]
  | allocateBed =>
    simp only [IBedManager.call, icu_allocateBed_eq, general_allocateBed_eq,
      ICUBedManager.allocateBed, GeneralBedManager.allocateBed]
    split <;> simp [relabel]

/-- C9: from every initial count `c` and for every sequence of `allocateBed` and
`showCapacity` calls, the ICU manager returns, call by call, the same results and holds
the same remaining count as the general manager, and its output is the general manager's
output with the two ward texts exchanged ("Available General Beds: " for
"Available ICU Beds: ", "No general beds available!" for "No ICU beds available!"). -/
theorem general_icu_equivalent (c : Int) (calls : List Call) :
    IBedManager.trace ICUBedManager c calls =
      (IBedManager.trace GeneralBedManager c calls).map
        (fun r => (r.1, r.2.1, r.2.2.map relabel)) ∧
    (IBedManager.trace ICUBedManager c calls).map (fun r => (r.1, r.2.1)) =
      (IBedManager.trace GeneralBedManager c calls).map (fun r => (r.1, r.2.1)) := by
  have key : ∀ (cs : List Call) (s : Int),
      IBedManager.trace ICUBedManager s cs =
        (IBedManager.trace GeneralBedManager s cs).map
          (fun r => (r.1, r.2.1, r.2.2.map relabel)) := by
    intro cs
    induction cs with
    | nil => intro s; rfl
    | cons k ks ih =>
      intro s
      have hk := icu_call_eq_general s k
      have hs : (IBedManager.call ICUBedManager s k).2.1 =
          (IBedManager.call GeneralBedManager s k).2.1 := by rw [hk]
      simp only [IBedManager.trace, List.map_cons, hs, ih]
      rw [hk]
  refine ⟨key calls c, ?_⟩
  rw [key calls c, List.map_map]
  rfl

/-! ## Console reads and the index guard -/

theorem cinInt_num (v : Int) (rest : List Token) (h1 : INT_MIN ≤ v) (h2 : v ≤ INT_MAX) :
    cinInt (.num v :: rest) = .ok (v, rest) := by
  simp [cinInt, h1, h2]

theorem cinInt_ok {input rest : List Token} {v : Int} (h : cinInt input = .ok (v, rest)) :
    input = .num v :: rest ∧ INT_MIN ≤ v ∧ v ≤ INT_MAX := by
  cases input with
  | nil => simp [cinInt] at h
  | cons t ts =>
    cases t with
    | word s => simp [cinInt] at h
    | num w =>
      simp only [cinInt] at h
      split at h
      · rename_i hr
        simp only [Except.ok.injEq, Prod.mk.injEq] at h
        obtain ⟨h1, h2⟩ := h
        subst h1
        subst h2
        exact ⟨rfl, hr⟩
      · simp at h

theorem toSizeT_of_nonneg (v : Int) (h0 : 0 ≤ v) (h1 : v ≤ INT_MAX) :
    toSizeT v = v.toNat := by
  have h2 : v < 18446744073709551616 := by
    simp only [INT_MAX] at h1
    omega
  simp only [toSizeT]
  rw [Int.emod_eq_of_lt h0 h2]

theorem guard_iff (v : Int) (n : Nat) (h2 : v ≤ INT_MAX) :
    (v > 0 ∧ toSizeT v ≤ n) ↔ (1 ≤ v ∧ v ≤ n) := by
  constructor
  · rintro ⟨hp, hs⟩
    rw [toSizeT_of_nonneg v (le_of_lt hp) h2] at hs
    omega
  · rintro ⟨hp, hs⟩
    have h0 : 0 ≤ v := by omega
    rw [toSizeT_of_nonneg v h0 h2]
    omega

/-! ## Single precision sums that stay exact -/

theorem ulpExp_small (fuel n : Nat) (h : n < 16777216) : ulpExp fuel n = 0 := by
  cases fuel with
  | zero => rfl
  | succ f => simp [ulpExp, h]

theorem roundF32_exact (n : Nat) (hle : n ≤ 33554432) (heven : n % 2 = 0) :
    roundF32 n = n := by
  by_cases h1 : n < 16777216
  · simp [roundF32, h1]
  · by_cases h2 : n = 33554432
    · subst h2
      decide
    · have hlt : n < 33554432 := by omega
      have hn : n = (n - 1) + 1 := by omega
      have he : ulpExp n n = 1 := by
        rw [hn, ulpExp]
        rw [← hn]
        simp only [h1, if_false]
        rw [ulpExp_small _ _ (by omega)]
      simp only [roundF32, h1, if_false, he]
      norm_num
      rw [if_pos heven]
      omega

theorem f32Add_exact (a b : Nat) (hle : a + b ≤ 33554432) (ha : a % 2 = 0) (hb : b % 2 = 0) :
    f32Add a b = a + b :=
  roundF32_exact (a + b) hle (by omega)

/-! ## Totals whose printed text is exact -/

theorem sigScale_small (fuel v : Nat) (h : v < 1000000) : sigScale fuel v = 1 := by
  cases fuel with
  | zero => rfl
  | succ f => simp [sigScale, h]

theorem printedFloat_exact (v : Nat) (hle : v ≤ 10000000) (hten : v % 10 = 0) :
    printedFloat v = v := by
  by_cases h1 : v < 1000000
  · simp only [printedFloat, sigScale_small v v h1, Nat.mod_one, Nat.div_one, Nat.mul_one]
    simp
  · by_cases h2 : v = 10000000
    · subst h2
      decide
    · have hv : v = (v - 1) + 1 := by omega
      have hs : sigScale v v = 10 := by
        rw [hv, sigScale]
        rw [← hv]
        simp only [h1, if_false]
        rw [sigScale_small _ _ (by omega)]
      simp only [printedFloat, hs, hten]
      norm_num
      omega

/-! ## Catalog prices -/

theorem priceAt_values :
    CafeMenu.priceAt 1 = 450 ∧ CafeMenu.priceAt 2 = 550 ∧
    CafeMenu.priceAt 3 = 600 ∧ CafeMenu.priceAt 4 = 400 := by
  decide

theorem priceAt_even (i : Int) : CafeMenu.priceAt i % 2 = 0 := by
  by_cases h : 1 ≤ i
  · by_cases h4 : i ≤ 4
    · interval_cases i <;> decide
    · have hn : CafeMenu.menu.get? (i - 1).toNat = none := by
        rw [List.get?_eq_none]
        have : CafeMenu.menu.length = 4 := rfl
        omega
      simp only [CafeMenu.priceAt, h, if_true, hn]
  · simp only [CafeMenu.priceAt, h, if_false]

theorem priceAt_ten (i : Int) : CafeMenu.priceAt i % 10 = 0 := by
  by_cases h : 1 ≤ i
  · by_cases h4 : i ≤ 4
    · interval_cases i <;> decide
    · have hn : CafeMenu.menu.get? (i - 1).toNat = none := by
        rw [List.get?_eq_none]
        have : CafeMenu.menu.length = 4 := rfl
        omega
      simp only [CafeMenu.priceAt, h, if_true, hn]
  · simp only [CafeMenu.priceAt, h, if_false]

theorem priceSum_ten (sels : List Int) : (sels.map CafeMenu.priceAt).sum % 10 = 0 := by
  induction sels with
  | nil => rfl
  | cons c cs ih =>
    have hc := priceAt_ten c
    simp only [List.map_cons, List.sum_cons]
    omega

/-! ## One round of `placeOrder` -/

theorem placeOrderLoop_checkout (f t : Nat) (rest : List Token) :
    CafeOrder.placeOrderLoop (f + 1) t (.num 0 :: rest) =
      .ok { total := t,
            out := CafeOrder.shown ++ [.text "Total Bill: Rs. ", .float t, .endl],
            input := rest } := by
  have hc : cinInt (.num 0 :: rest) = .ok (0, rest) :=
    cinInt_num 0 rest (by decide) (by decide)
  simp [CafeOrder.placeOrderLoop, hc, CafeOrder.shown]

theorem placeOrderLoop_select (f t : Nat) (c : Int) (rest : List Token)
    (h1 : 1 ≤ c) (h4 : c ≤ 4) :
    CafeOrder.placeOrderLoop (f + 1) t (.num c :: rest) =
      (CafeOrder.placeOrderLoop f (f32Add t (CafeMenu.priceAt c)) rest).map
        (CafeRes.prepend CafeOrder.shown) := by
  have hc : ∀ v : Int, 1 ≤ v → v ≤ 4 → cinInt (.num v :: rest) = .ok (v, rest) := by
    intro v hv1 hv4
    apply cinInt_num
    · simp only [INT_MIN]; omega
    · simp only [INT_MAX]; omega
  interval_cases c <;>
    simp [CafeOrder.placeOrderLoop, hc, CafeOrder.shown, toSizeT, CafeMenu.menu,
      CafeMenu.priceAt]

theorem placeOrderLoop_invalid (f t : Nat) (c : Int) (rest : List Token)
    (hmin : INT_MIN ≤ c) (hmax : c ≤ INT_MAX) (h0 : c ≠ 0) (hout : ¬ (1 ≤ c ∧ c ≤ 4)) :
    CafeOrder.placeOrderLoop (f + 1) t (.num c :: rest) =
      (CafeOrder.placeOrderLoop f t rest).map
        (CafeRes.prepend (CafeOrder.shown ++ [.text "Invalid Choice!", .endl])) := by
  have hg : ¬ (c > 0 ∧ toSizeT c ≤ CafeMenu.menu.length) := by
    rw [guard_iff c _ hmax]
    exact hout
  simp only [CafeOrder.placeOrderLoop, cinInt_num c rest hmin hmax, hg, if_false, h0,
    ne_eq, not_false_eq_true, if_true, CafeOrder.shown]

/-! ## Whole orders -/

theorem CafeRes_prepend_prepend (a b : List Out) (x : Except Fault CafeRes) :
    (x.map (CafeRes.prepend a)).map (CafeRes.prepend b) = x.map (CafeRes.prepend (b ++ a)) := by
  cases x with
  | error e => rfl
  | ok r => simp [Except.map, CafeRes.prepend]

theorem CafeRes_total_prepend (a : List Out) (x : Except Fault CafeRes) :
    (x.map (CafeRes.prepend a)).map (fun r => r.total) = x.map (fun r => r.total) := by
  cases x with
  | error e => rfl
  | ok r => rfl

theorem Out_times_succ_right (n : Nat) (o : List Out) :
    Out.times (n + 1) o = Out.times n o ++ o := by
  induction n with
  | zero => simp [Out.times]
  | succ k ih =>
    show o ++ Out.times (k + 1) o = (o ++ Out.times k o) ++ o
    rw [ih, List.append_assoc]

theorem placeOrder_checkout (t : Nat) (rest : List Token) :
    CafeOrder.placeOrder t (.num 0 :: rest) =
      .ok { total := t,
            out := CafeOrder.shown ++ [.text "Total Bill: Rs. ", .float t, .endl],
            input := rest } := by
  simp only [CafeOrder.placeOrder, List.length_cons]
  exact placeOrderLoop_checkout _ t rest

theorem placeOrder_select (t : Nat) (c : Int) (rest : List Token) (h1 : 1 ≤ c) (h4 : c ≤ 4) :
    CafeOrder.placeOrder t (.num c :: rest) =
      (CafeOrder.placeOrder (f32Add t (CafeMenu.priceAt c)) rest).map
        (CafeRes.prepend CafeOrder.shown) := by
  simp only [CafeOrder.placeOrder, List.length_cons]
  exact placeOrderLoop_select _ t c rest h1 h4

theorem placeOrder_skip (t : Nat) (c : Int) (rest : List Token)
    (hmin : INT_MIN ≤ c) (hmax : c ≤ INT_MAX) (h0 : c ≠ 0) (hout : ¬ (1 ≤ c ∧ c ≤ 4)) :
    CafeOrder.placeOrder t (.num c :: rest) =
      (CafeOrder.placeOrder t rest).map
        (CafeRes.prepend (CafeOrder.shown ++ [.text "Invalid Choice!", .endl])) := by
  simp only [CafeOrder.placeOrder, List.length_cons]
  exact placeOrderLoop_invalid _ t c rest hmin hmax h0 hout

/-- Valid selections in front of any further input: the loop goes through them, one menu
per selection, and carries on with the single precision total they add up to. -/
theorem placeOrder_selections (sels : List Int) :
    ∀ (t : Nat) (rest : List Token), (∀ i ∈ sels, 1 ≤ i ∧ i ≤ 4) →
      CafeOrder.placeOrder t (sels.map Token.num ++ rest) =
        (CafeOrder.placeOrder (CafeOrder.totalAfter t sels) rest).map
          (CafeRes.prepend (Out.times sels.length CafeOrder.shown)) := by
  induction sels with
  | nil =>
    intro t rest _
    cases h : CafeOrder.placeOrder t rest with
    | error e => simp [CafeOrder.totalAfter, h, Except.map]
    | ok r => simp [CafeOrder.totalAfter, h, Except.map, CafeRes.prepend, Out.times]
  | cons c cs ih =>
    intro t rest hsel
    have hc := hsel c (List.mem_cons_self c cs)
    have hcs : ∀ i ∈ cs, 1 ≤ i ∧ i ≤ 4 := fun i hi => hsel i (List.mem_cons_of_mem c hi)
    rw [List.map_cons, List.cons_append, placeOrder_select t c _ hc.1 hc.2, ih _ rest hcs,
      CafeRes_prepend_prepend, List.length_cons, Out.times]
    rfl

theorem totalAfter_exact (sels : List Int) :
    ∀ t : Nat, t % 2 = 0 → t + (sels.map CafeMenu.priceAt).sum ≤ 33554432 →
      CafeOrder.totalAfter t sels = t + (sels.map CafeMenu.priceAt).sum := by
  induction sels with
  | nil => intro t _ _; simp [CafeOrder.totalAfter]
  | cons c cs ih =>
    intro t ht hsum
    simp only [List.map_cons, List.sum_cons] at hsum
    have hp := priceAt_even c
    have hadd : f32Add t (CafeMenu.priceAt c) = t + CafeMenu.priceAt c :=
      f32Add_exact t _ (by omega) ht hp
    have hrec := ih (t + CafeMenu.priceAt c) (by omega) (by omega)
    simp only [CafeOrder.totalAfter, List.foldl_cons, hadd] at hrec ⊢
    rw [hrec, List.map_cons, List.sum_cons]
    omega

/-- C4 (amended): for every sequence of cafe selections, each within 1..4, whose catalog
prices (Tea 450, Coffee 550, Sandwich 600, Cookie 400, one per selection, repeats counted
each time) sum to at most 10000000, and which is followed by 0, `placeOrder` on a fresh
order (total 0) ends at that 0, having shown the menu once per entry; the total it
streams after "Total Bill: Rs. " is that sum and the text printed for it denotes that
sum; the 0 adds nothing. -/
theorem placeOrder_total (sels : List Int) (rest : List Token)
    (hsel : ∀ i ∈ sels, 1 ≤ i ∧ i ≤ 4)
    (hsum : (sels.map CafeMenu.priceAt).sum ≤ 10000000) :
    CafeOrder.placeOrder 0 (sels.map Token.num ++ Token.num 0 :: rest) =
      .ok { total := (sels.map CafeMenu.priceAt).sum,
            out := Out.times (sels.length + 1) CafeOrder.shown ++
              [.text "Total Bill: Rs. ", .float (sels.map CafeMenu.priceAt).sum, .endl],
            input := rest } ∧
    printedFloat (sels.map CafeMenu.priceAt).sum = (sels.map CafeMenu.priceAt).sum ∧
    CafeMenu.priceAt 1 = 450 ∧ CafeMenu.priceAt 2 = 550 ∧
    CafeMenu.priceAt 3 = 600 ∧ CafeMenu.priceAt 4 = 400 := by
  refine ⟨?_, printedFloat_exact _ hsum (priceSum_ten sels), priceAt_values⟩
  have ht : CafeOrder.totalAfter 0 sels = (sels.map CafeMenu.priceAt).sum := by
    rw [totalAfter_exact sels 0 rfl (by omega)]
    omega
  rw [placeOrder_selections sels 0 _ hsel, ht, placeOrder_checkout, Out_times_succ_right]
  simp [Except.map, CafeRes.prepend]

theorem placeOrder_total_witness :
    (∀ i ∈ [(1 : Int), 2], 1 ≤ i ∧ i ≤ 4) ∧
    (([(1 : Int), 2].map CafeMenu.priceAt).sum ≤ 10000000) ∧
    ([(1 : Int), 2].map CafeMenu.priceAt).sum = 1000 ∧
    (CafeOrder.placeOrder 0 [.num 1, .num 2, .num 0]).map (fun r => r.total) = .ok 1000 ∧
    printedFloat 1000 = 1000 := by
  have hsel : ∀ i ∈ [(1 : Int), 2], 1 ≤ i ∧ i ≤ 4 := by decide
  have hsum : ([(1 : Int), 2].map CafeMenu.priceAt).sum ≤ 10000000 := by decide
  have h := (placeOrder_total [1, 2] [] hsel hsum).1
  refine ⟨hsel, hsum, by decide, ?_, by decide⟩
  simp only [List.map_cons, List.map_nil, List.cons_append, List.nil_append] at h
  rw [h]
  rfl

/-- C4 (counterexample): 16667 selections of item 3, one of item 1, then 0.  Every
selection is within 1..4 and the prices sum to 10000650; the total streamed is 10000650,
but the text printed for it has six significant digits and denotes 10000600.  With 55924
selections of item 3 and one of item 1 the prices sum to 33554850 and even the total
streamed differs: the single precision `total` holds 33554848. -/
theorem placeOrder_total_counterexample :
    ((∀ i ∈ List.replicate 16667 (3 : Int) ++ [1], 1 ≤ i ∧ i ≤ 4) ∧
      ((List.replicate 16667 (3 : Int) ++ [1]).map CafeMenu.priceAt).sum = 10000650 ∧
      (CafeOrder.placeOrder 0
          ((List.replicate 16667 (3 : Int) ++ [1]).map Token.num ++ [Token.num 0])).map
        (fun r => r.total) = .ok 10000650 ∧
      printedFloat 10000650 = 10000600) ∧
    ((∀ i ∈ List.replicate 55924 (3 : Int) ++ [1], 1 ≤ i ∧ i ≤ 4) ∧
      ((List.replicate 55924 (3 : Int) ++ [1]).map CafeMenu.priceAt).sum = 33554850 ∧
      (CafeOrder.placeOrder 0
          ((List.replicate 55924 (3 : Int) ++ [1]).map Token.num ++ [Token.num 0])).map
        (fun r => r.total) = .ok 33554848) := by
  have hsel : ∀ n : Nat, ∀ i ∈ List.replicate n (3 : Int), 1 ≤ i ∧ i ≤ 4 := by
    intro n i hi
    rw [List.mem_replicate] at hi
    rw [hi.2]
    decide
  have hall : ∀ n : Nat, ∀ i ∈ List.replicate n (3 : Int) ++ [1], 1 ≤ i ∧ i ≤ 4 := by
    intro n i hi
    rw [List.mem_append] at hi
    rcases hi with hi | hi
    · exact hsel n i hi
    · rw [List.mem_singleton] at hi
      rw [hi]
      decide
  have hsum3 : ∀ n : Nat,
      ((List.replicate n (3 : Int)).map CafeMenu.priceAt).sum = n * 600 := by
    intro n
    rw [List.map_replicate, List.sum_replicate, priceAt_values.2.2.1]
    rfl
  have hsum : ∀ n : Nat,
      ((List.replicate n (3 : Int) ++ [1]).map CafeMenu.priceAt).sum = n * 600 + 450 := by
    intro n
    rw [List.map_append, List.sum_append, hsum3, List.map_cons, List.map_nil,
      priceAt_values.1]
    rfl
  have hrun : ∀ n : Nat, n * 600 ≤ 33554432 →
      (CafeOrder.placeOrder 0
          ((List.replicate n (3 : Int) ++ [1]).map Token.num ++ [Token.num 0])).map
        (fun r => r.total) =
      (CafeOrder.placeOrder (n * 600) [Token.num 1, Token.num 0]).map (fun r => r.total) := by
    intro n hn
    have ht : CafeOrder.totalAfter 0 (List.replicate n (3 : Int)) = n * 600 := by
      rw [totalAfter_exact _ 0 rfl (by rw [hsum3]; omega), hsum3]
      omega
    rw [List.map_append, List.append_assoc, placeOrder_selections _ 0 _ (hsel n), ht,
      CafeRes_total_prepend]
    rfl
  refine ⟨⟨hall 16667, hsum 16667, ?_, by decide⟩, ⟨hall 55924, hsum 55924, ?_⟩⟩
  · rw [hrun 16667 (by decide)]
    decide
  · rw [hrun 55924 (by decide)]
    decide

/-! ## Out-of-range selections -/

theorem placeOrder_filter (choices : List Int) :
    ∀ t : Nat, (∀ c ∈ choices, INT_MIN ≤ c ∧ c ≤ INT_MAX) →
      (CafeOrder.placeOrder t (choices.map Token.num)).map (fun r => r.total) =
        (CafeOrder.placeOrder t ((choices.filter CafeOrder.accepted).map Token.num)).map
          (fun r => r.total) := by
  induction choices with
  | nil => intro t _; rfl
  | cons c cs ih =>
    intro t hr
    have hc := hr c (List.mem_cons_self c cs)
    have hcs : ∀ d ∈ cs, INT_MIN ≤ d ∧ d ≤ INT_MAX :=
      fun d hd => hr d (List.mem_cons_of_mem c hd)
    by_cases h0 : c = 0
    · subst h0
      have ha : CafeOrder.accepted 0 = true := by decide
      rw [List.filter_cons_of_pos ha, List.map_cons, List.map_cons, placeOrder_checkout,
        placeOrder_checkout]
      rfl
    · by_cases hin : 1 ≤ c ∧ c ≤ 4
      · have ha : CafeOrder.accepted c = true := by
          simp [CafeOrder.accepted, hin]
        rw [List.filter_cons_of_pos ha, List.map_cons, List.map_cons,
          placeOrder_select t c _ hin.1 hin.2, placeOrder_select t c _ hin.1 hin.2,
          CafeRes_total_prepend, CafeRes_total_prepend]
        exact ih _ hcs
      · have ha : ¬ CafeOrder.accepted c = true := by
          simp [CafeOrder.accepted, h0, hin]
        rw [List.filter_cons_of_neg ha, List.map_cons,
          placeOrder_skip t c _ hc.1 hc.2 h0 hin, CafeRes_total_prepend]
        exact ih t hcs

/-- C5: in `placeOrder`, an `int` selection `c` that is neither 0 nor within 1..4
(negative or above 4 alike) leaves the running total as it is, prints "Invalid Choice!"
after the menu and goes on with the next read instead of ending the loop; hence the
total reported for any sequence of `int` entries is the total reported for that sequence
with its out-of-range entries removed. -/
theorem placeOrder_invalid (t : Nat) (c : Int) (rest : List Token) (choices : List Int)
    (hmin : INT_MIN ≤ c) (hmax : c ≤ INT_MAX) (h0 : c ≠ 0) (hout : ¬ (1 ≤ c ∧ c ≤ 4))
    (hr : ∀ d ∈ choices, INT_MIN ≤ d ∧ d ≤ INT_MAX) :
    CafeOrder.placeOrder t (.num c :: rest) =
      (CafeOrder.placeOrder t rest).map
        (CafeRes.prepend (CafeOrder.shown ++ [.text "Invalid Choice!", .endl])) ∧
    (CafeOrder.placeOrder t (choices.map Token.num)).map (fun r => r.total) =
      (CafeOrder.placeOrder t ((choices.filter CafeOrder.accepted).map Token.num)).map
        (fun r => r.total) :=
  ⟨placeOrder_skip t c rest hmin hmax h0 hout, placeOrder_filter choices t hr⟩

theorem placeOrder_invalid_witness :
    (INT_MIN ≤ -3 ∧ (-3 : Int) ≤ INT_MAX ∧ (-3 : Int) ≠ 0 ∧ ¬ (1 ≤ (-3 : Int) ∧ (-3 : Int) ≤ 4)) ∧
    (∀ d ∈ [(1 : Int), 7, -3, 2, 0], INT_MIN ≤ d ∧ d ≤ INT_MAX) ∧
    [(1 : Int), 7, -3, 2, 0].filter CafeOrder.accepted = [1, 2, 0] ∧
    CafeOrder.placeOrder 0 [.num (-3), .num 0] =
      (CafeOrder.placeOrder 0 [.num 0]).map
        (CafeRes.prepend (CafeOrder.shown ++ [.text "Invalid Choice!", .endl])) ∧
    (CafeOrder.placeOrder 0 ([(1 : Int), 7, -3, 2, 0].map Token.num)).map (fun r => r.total) =
      (CafeOrder.placeOrder 0
        (([(1 : Int), 7, -3, 2, 0].filter CafeOrder.accepted).map Token.num)).map
        (fun r => r.total) ∧
    (CafeOrder.placeOrder 0 ([(1 : Int), 7, -3, 2, 0].map Token.num)).map (fun r => r.total) =
      .ok 1000 :=
  ⟨by decide, by decide, by decide,
   (placeOrder_invalid 0 (-3) [.num 0] [1, 7, -3, 2, 0] (by decide) (by decide) (by decide)
      (by decide) (by decide)).1,
   (placeOrder_invalid 0 (-3) [.num 0] [1, 7, -3, 2, 0] (by decide) (by decide) (by decide)
      (by decide) (by decide)).2,
   by decide⟩

/-! ## Patient registration -/

theorem registerPatient_eq {σ : Type} (M : IBedManager σ) (bm : σ) (p : Patient)
    (name : Token) (age id : Int) (rest : List Token)
    (ha : INT_MIN ≤ age ∧ age ≤ INT_MAX) (hi : INT_MIN ≤ id ∧ id ≤ INT_MAX) :
    p.registerPatient M bm (name :: .num age :: .num id :: rest) =
      .ok ({ name := name.text, age := some age, id := some id },
           { bm := (M.allocateBed bm).2.1,
             out := [.text "Enter Name: ", .text "Enter Age: ", .text "Enter Patient ID: "] ++
               (M.allocateBed bm).2.2 ++
               (if (M.allocateBed bm).1 then [.text "Patient Registered Successfully!", .endl]
                else []),
             input := rest }) := by
  simp only [Patient.registerPatient, cinString, cinInt_num age _ ha.1 ha.2,
    cinInt_num id _ hi.1 hi.2]

theorem registerPatient_length {σ : Type} (M : IBedManager σ) (bm : σ) (p q : Patient)
    (input : List Token) (r : Res σ) (h : p.registerPatient M bm input = .ok (q, r)) :
    r.input.length < input.length := by
  simp only [Patient.registerPatient] at h
  cases input with
  | nil => simp [cinString] at h
  | cons t ts =>
    simp only [cinString] at h
    cases h1 : cinInt ts with
    | error e => simp [h1] at h
    | ok v1 =>
      obtain ⟨age, in1⟩ := v1
      simp only [h1] at h
      cases h2 : cinInt in1 with
      | error e => simp [h2] at h
      | ok v2 =>
        obtain ⟨id, in2⟩ := v2
        simp only [h2, Except.ok.injEq, Prod.mk.injEq] at h
        have e1 := (cinInt_ok h1).1
        have e2 := (cinInt_ok h2).1
        rw [← h.2, e1, e2]
        simp only [List.length_cons]
        omega

theorem Res_prepend_prepend {σ : Type} (a b : List Out) (x : Except Fault (Res σ)) :
    (x.map (Res.prepend a)).map (Res.prepend b) = x.map (Res.prepend (b ++ a)) := by
  cases x with
  | error e => rfl
  | ok r => simp [Except.map, Res.prepend]

theorem executeLoop_register {σ : Type} (M : IBedManager σ) (f : Nat) (bm : σ) (p : Patient)
    (name : Token) (age id : Int) (rest : List Token)
    (ha : INT_MIN ≤ age ∧ age ≤ INT_MAX) (hi : INT_MIN ≤ id ∧ id ≤ INT_MAX) :
    HospitalService.executeLoop M (f + 1) bm p
        (.num 1 :: name :: .num age :: .num id :: rest) =
      (HospitalService.executeLoop M f (M.allocateBed bm).2.1
          { name := name.text, age := some age, id := some id } rest).map
        (Res.prepend (HospitalMenu.step M bm (.register name age id)).2) := by
  have hc : cinInt (.num 1 :: name :: .num age :: .num id :: rest) =
      .ok (1, name :: .num age :: .num id :: rest) :=
    cinInt_num 1 _ (by decide) (by decide)
  simp only [HospitalService.executeLoop, hc, if_true,
    registerPatient_eq M bm p name age id rest ha hi, HospitalMenu.step]
  simp

theorem executeLoop_view {σ : Type} (M : IBedManager σ) (f : Nat) (bm : σ) (p : Patient)
    (rest : List Token) :
    HospitalService.executeLoop M (f + 1) bm p (.num 2 :: rest) =
      (HospitalService.executeLoop M f bm p rest).map
        (Res.prepend (HospitalMenu.step M bm .view).2) := by
  have hc : cinInt (.num 2 :: rest) = .ok (2, rest) :=
    cinInt_num 2 _ (by decide) (by decide)
  simp [HospitalService.executeLoop, hc, HospitalMenu.step]

theorem executeLoop_other {σ : Type} (M : IBedManager σ) (f : Nat) (bm : σ) (p : Patient)
    (c : Int) (rest : List Token) (hr : INT_MIN ≤ c ∧ c ≤ INT_MAX)
    (h0 : c ≠ 0) (h1 : c ≠ 1) (h2 : c ≠ 2) :
    HospitalService.executeLoop M (f + 1) bm p (.num c :: rest) =
      (HospitalService.executeLoop M f bm p rest).map
        (Res.prepend (HospitalMenu.step M bm (.other c)).2) := by
  simp [HospitalService.executeLoop, cinInt_num c rest hr.1 hr.2, h0, h1, h2,
    HospitalMenu.step]

theorem executeLoop_exit {σ : Type} (M : IBedManager σ) (f : Nat) (bm : σ) (p : Patient)
    (rest : List Token) :
    HospitalService.executeLoop M (f + 1) bm p (.num 0 :: rest) =
      .ok { bm := bm, out := HospitalService.menu, input := rest } := by
  have hc : cinInt (.num 0 :: rest) = .ok (0, rest) :=
    cinInt_num 0 _ (by decide) (by decide)
  simp [HospitalService.executeLoop, hc, Res.prepend]

/-! ## Whole sessions at the hospital menu -/

theorem executeLoop_session {σ : Type} (M : IBedManager σ) (cmds : List MenuInput) :
    ∀ (f : Nat) (bm : σ) (p : Patient) (rest : List Token), (∀ a ∈ cmds, a.wf) →
      HospitalService.executeLoop M (cmds.length + (f + 1)) bm p
          (MenuInput.session cmds ++ .num 0 :: rest) =
        .ok { bm := (HospitalMenu.run M bm cmds).1,
              out := (HospitalMenu.run M bm cmds).2,
              input := rest } := by
  induction cmds with
  | nil =>
    intro f bm p rest _
    simp only [List.length_nil, Nat.zero_add, MenuInput.session, List.nil_append,
      HospitalMenu.run]
    exact executeLoop_exit M f bm p rest
  | cons a as ih =>
    intro f bm p rest hwf
    have hwa := hwf a (List.mem_cons_self a as)
    have hwas : ∀ b ∈ as, b.wf := fun b hb => hwf b (List.mem_cons_of_mem a hb)
    have hfuel : (a :: as).length + (f + 1) = (as.length + (f + 1)) + 1 := by
      simp only [List.length_cons]
      omega
    rw [hfuel]
    cases a with
    | register name age id =>
      simp only [MenuInput.wf] at hwa
      simp only [MenuInput.session, MenuInput.tokens, List.cons_append, List.nil_append]
      rw [executeLoop_register M _ bm p name age id _ hwa.1 hwa.2, ih f _ _ rest hwas]
      simp [Except.map, Res.prepend, HospitalMenu.run, HospitalMenu.step]
    | view =>
      simp only [MenuInput.session, MenuInput.tokens, List.cons_append, List.nil_append]
      rw [executeLoop_view M _ bm p _, ih f _ _ rest hwas]
      simp [Except.map, Res.prepend, HospitalMenu.run, HospitalMenu.step]
    | other c =>
      simp only [MenuInput.wf] at hwa
      simp only [MenuInput.session, MenuInput.tokens, List.cons_append, List.nil_append]
      rw [executeLoop_other M _ bm p c _ hwa.1 hwa.2.1 hwa.2.2.1 hwa.2.2.2,
        ih f _ _ rest hwas]
      simp [Except.map, Res.prepend, HospitalMenu.run, HospitalMenu.step]

theorem session_length (cmds : List MenuInput) :
    cmds.length ≤ (MenuInput.session cmds).length := by
  induction cmds with
  | nil => simp [MenuInput.session]
  | cons a as ih =>
    cases a <;> simp [MenuInput.session, MenuInput.tokens] <;> omega

theorem execute_session {σ : Type} (M : IBedManager σ) (cmds : List MenuInput) (bm : σ)
    (rest : List Token) (hwf : ∀ a ∈ cmds, a.wf) :
    HospitalService.execute M bm (MenuInput.session cmds ++ .num 0 :: rest) =
      .ok { bm := (HospitalMenu.run M bm cmds).1,
            out := (HospitalMenu.run M bm cmds).2,
            input := rest } := by
  have hl := session_length cmds
  have hfuel : (MenuInput.session cmds ++ Token.num 0 :: rest).length + 1 =
      cmds.length + (((MenuInput.session cmds).length - cmds.length + rest.length + 1) + 1) := by
    simp only [List.length_append, List.length_cons]
    omega
  rw [HospitalService.execute, hfuel]
  exact executeLoop_session M cmds _ bm _ rest hwf

theorem general_run_capacity (cmds : List MenuInput) :
    ∀ C : Int, 0 ≤ C →
      (HospitalMenu.run GeneralBedManager C cmds).1 =
        max (C - MenuInput.registrations cmds) 0 := by
  induction cmds with
  | nil =>
    intro C hC
    simp only [HospitalMenu.run, MenuInput.registrations]
    rw [max_eq_left (by simpa using hC)]
    simp
  | cons a as ih =>
    intro C hC
    cases a with
    | register name age id =>
      simp only [HospitalMenu.run, HospitalMenu.step, MenuInput.registrations,
        general_allocateBed_eq]
      by_cases hpos : 0 < C
      · rw [general_allocate_pos C hpos, ih (C - 1) (by omega)]
        congr 1
        push_cast
        omega
      · have hz : C ≤ 0 := not_lt.mp hpos
        rw [general_allocate_nonpos C hz, ih C hC]
        push_cast
        omega
    | view =>
      simp only [HospitalMenu.run, HospitalMenu.step, MenuInput.registrations]
      exact ih C hC
    | other c =>
      simp only [HospitalMenu.run, HospitalMenu.step, MenuInput.registrations]
      exact ih C hC

theorem icu_run_capacity (cmds : List MenuInput) :
    ∀ C : Int, 0 ≤ C →
      (HospitalMenu.run ICUBedManager C cmds).1 =
        max (C - MenuInput.registrations cmds) 0 := by
  induction cmds with
  | nil =>
    intro C hC
    simp only [HospitalMenu.run, MenuInput.registrations]
    rw [max_eq_left (by simpa using hC)]
    simp
  | cons a as ih =>
    intro C hC
    cases a with
    | register name age id =>
      simp only [HospitalMenu.run, HospitalMenu.step, MenuInput.registrations,
        icu_allocateBed_eq]
      by_cases hpos : 0 < C
      · rw [icu_allocate_pos C hpos, ih (C - 1) (by omega)]
        congr 1
        push_cast
        omega
      · have hz : C ≤ 0 := not_lt.mp hpos
        rw [icu_allocate_nonpos C hz, ih C hC]
        push_cast
        omega
    | view =>
      simp only [HospitalMenu.run, HospitalMenu.step, MenuInput.registrations]
      exact ih C hC
    | other c =>
      simp only [HospitalMenu.run, HospitalMenu.step, MenuInput.registrations]
      exact ih C hC

/-- C7: `HospitalService::execute` runs the menu state machine of the specification.  On
every session of typed actions (register with its three entries, view, or any `int` other
than 0, 1, 2) closed by input 0, it returns at that 0 with the bed manager state and the
output of the state machine: input 1 is one `allocateBed` attempt through the register
flow, input 2 prints the capacity and changes nothing, another integer prints
"Invalid Choice!" and changes nothing, each followed by the menu again.  With either bed
manager class and a start capacity `C >= 0`, a session with `k` register actions ends at
capacity `max (C - k) 0`. -/
theorem execute_state_machine {σ : Type} (M : IBedManager σ) (bm : σ) (C : Int)
    (cmds : List MenuInput) (rest : List Token)
    (hwf : ∀ a ∈ cmds, a.wf) (hC : 0 ≤ C) :
    HospitalService.execute M bm (MenuInput.session cmds ++ .num 0 :: rest) =
      .ok { bm := (HospitalMenu.run M bm cmds).1,
            out := (HospitalMenu.run M bm cmds).2,
            input := rest } ∧
    (HospitalService.execute GeneralBedManager C
        (MenuInput.session cmds ++ .num 0 :: rest)).map (fun r => r.bm) =
      .ok (max (C - MenuInput.registrations cmds) 0) ∧
    (HospitalService.execute ICUBedManager C
        (MenuInput.session cmds ++ .num 0 :: rest)).map (fun r => r.bm) =
      .ok (max (C - MenuInput.registrations cmds) 0) := by
  refine ⟨execute_session M cmds bm rest hwf, ?_, ?_⟩
  · rw [execute_session GeneralBedManager cmds C rest hwf, ← general_run_capacity cmds C hC]
    rfl
  · rw [execute_session ICUBedManager cmds C rest hwf, ← icu_run_capacity cmds C hC]
    rfl

theorem execute_state_machine_witness :
    (∀ a ∈ [MenuInput.register (.word "Ann") 30 7, .view, .other 9,
        .register (.word "Bob") 41 8], a.wf) ∧
    (0 : Int) ≤ 1 ∧
    HospitalService.execute GeneralBedManager 1
        [.num 1, .word "Ann", .num 30, .num 7, .num 2, .num 9,
         .num 1, .word "Bob", .num 41, .num 8, .num 0, .num 5] =
      .ok { bm := 0,
            out := HospitalService.menu ++
              [.text "Enter Name: ", .text "Enter Age: ", .text "Enter Patient ID: ",
               .text "Patient Registered Successfully!", .endl] ++
              HospitalService.menu ++ [.text "Available General Beds: ", .int 0, .endl] ++
              HospitalService.menu ++ [.text "Invalid Choice!", .endl] ++
              HospitalService.menu ++
              [.text "Enter Name: ", .text "Enter Age: ", .text "Enter Patient ID: ",
               .text "No general beds available!", .endl] ++
              HospitalService.menu,
            input := [.num 5] } := by
  have hwf : ∀ a ∈ [MenuInput.register (.word "Ann") 30 7, .view, .other 9,
      .register (.word "Bob") 41 8], a.wf := by
    decide
  have h := (execute_state_machine GeneralBedManager (1 : Int) 1
    [.register (.word "Ann") 30 7, .view, .other 9, .register (.word "Bob") 41 8]
    [.num 5] hwf (by decide)).1
  refine ⟨hwf, by decide, ?_⟩
  simp only [MenuInput.session, MenuInput.tokens, List.cons_append, List.nil_append,
    List.append_nil] at h
  rw [h]
  decide

/-! ## Every call consumes input; reads fail only as input faults -/

theorem Except_map_ok {ε α β : Type} {f : α → β} {x : Except ε α} {b : β}
    (h : x.map f = .ok b) : ∃ a, x = .ok a ∧ f a = b := by
  cases x with
  | error e => simp [Except.map] at h
  | ok a => exact ⟨a, rfl, by simpa [Except.map] using h⟩

theorem Except_map_error {ε α β : Type} {f : α → β} {x : Except ε α} {e : ε}
    (h : x.map f = .error e) : x = .error e := by
  cases x with
  | error e1 => simpa [Except.map] using h
  | ok a => simp [Except.map] at h

theorem cinInt_error {input : List Token} {e : Fault} (h : cinInt input = .error e) :
    e = .input := by
  cases input with
  | nil => simp [cinInt] at h; exact h.symm
  | cons t ts =>
    cases t with
    | word s => simp [cinInt] at h; exact h.symm
    | num w =>
      simp only [cinInt] at h
      split at h
      · simp at h
      · simp at h; exact h.symm

theorem registerPatient_error {σ : Type} (M : IBedManager σ) (bm : σ) (p : Patient)
    (input : List Token) (e : Fault) (h : p.registerPatient M bm input = .error e) :
    e = .input := by
  simp only [Patient.registerPatient] at h
  cases input with
  | nil => simp [cinString] at h; exact h.symm
  | cons t ts =>
    simp only [cinString] at h
    cases h1 : cinInt ts with
    | error e1 =>
      simp only [h1, Except.error.injEq] at h
      rw [← h]
      exact cinInt_error h1
    | ok v1 =>
      obtain ⟨age, in1⟩ := v1
      simp only [h1] at h
      cases h2 : cinInt in1 with
      | error e2 =>
        simp only [h2, Except.error.injEq] at h
        rw [← h]
        exact cinInt_error h2
      | ok v2 =>
        obtain ⟨id, in2⟩ := v2
        simp [h2] at h

theorem executeLoop_length {σ : Type} (M : IBedManager σ) (f : Nat) :
    ∀ (bm : σ) (p : Patient) (input : List Token) (r : Res σ),
      HospitalService.executeLoop M f bm p input = .ok r →
        r.input.length < input.length := by
  induction f with
  | zero => intro bm p input r h; simp [HospitalService.executeLoop] at h
  | succ n ih =>
    intro bm p input r h
    simp only [HospitalService.executeLoop] at h
    cases hc : cinInt input with
    | error e => simp [hc] at h
    | ok v =>
      obtain ⟨c, in1⟩ := v
      have hin := (cinInt_ok hc).1
      simp only [hc] at h
      by_cases h1 : c = 1
      · subst h1
        simp only [if_true] at h
        cases hp : p.registerPatient M bm in1 with
        | error e => simp [hp] at h
        | ok w =>
          obtain ⟨q, r1⟩ := w
          have hl := registerPatient_length M bm p q in1 r1 hp
          simp only [hp, ne_eq, one_ne_zero, not_false_eq_true, if_true] at h
          obtain ⟨r2, hr2, hr⟩ := Except_map_ok h
          have := ih _ _ _ _ hr2
          rw [← hr, hin]
          simp only [Res.prepend, List.length_cons]
          omega
      · by_cases h2 : c = 2
        · subst h2
          simp at h
          obtain ⟨r2, hr2, hr⟩ := Except_map_ok h
          have := ih _ _ _ _ hr2
          rw [← hr, hin]
          simp only [Res.prepend, List.length_cons]
          omega
        · by_cases h0 : c = 0
          · subst h0
            simp at h
            rw [← h, hin]
            simp [Res.prepend]
          · simp [h1, h2, h0] at h
            obtain ⟨r2, hr2, hr⟩ := Except_map_ok h
            have := ih _ _ _ _ hr2
            rw [← hr, hin]
            simp only [Res.prepend, List.length_cons]
            omega

theorem executeLoop_no_index {σ : Type} (M : IBedManager σ) (f : Nat) :
    ∀ (bm : σ) (p : Patient) (input : List Token),
      HospitalService.executeLoop M f bm p input ≠ .error .index := by
  induction f with
  | zero => intro bm p input h; simp [HospitalService.executeLoop] at h
  | succ n ih =>
    intro bm p input h
    simp only [HospitalService.executeLoop] at h
    cases hc : cinInt input with
    | error e =>
      simp only [hc, Except.error.injEq] at h
      have := cinInt_error hc
      rw [h] at this
      exact Fault.noConfusion this
    | ok v =>
      obtain ⟨c, in1⟩ := v
      simp only [hc] at h
      by_cases h1 : c = 1
      · subst h1
        simp only [if_true] at h
        cases hp : p.registerPatient M bm in1 with
        | error e =>
          simp only [hp, Except.error.injEq] at h
          have := registerPatient_error M bm p in1 e hp
          rw [h] at this
          exact Fault.noConfusion this
        | ok w =>
          obtain ⟨q, r1⟩ := w
          simp only [hp, ne_eq, one_ne_zero, not_false_eq_true, if_true] at h
          exact ih _ _ _ (Except_map_error h)
      · by_cases h2 : c = 2
        · subst h2
          simp at h
          exact ih _ _ _ (Except_map_error h)
        · by_cases h0 : c = 0
          · subst h0
            simp at h
          · simp [h1, h2, h0] at h
            exact ih _ _ _ (Except_map_error h)

theorem placeOrderLoop_length (f : Nat) :
    ∀ (t : Nat) (input : List Token) (r : CafeRes),
      CafeOrder.placeOrderLoop f t input = .ok r → r.input.length < input.length := by
  induction f with
  | zero => intro t input r h; simp [CafeOrder.placeOrderLoop] at h
  | succ n ih =>
    intro t input r h
    cases hc : cinInt input with
    | error e => simp [CafeOrder.placeOrderLoop, hc] at h
    | ok v =>
      obtain ⟨c, in1⟩ := v
      obtain ⟨hin, hmin, hmax⟩ := cinInt_ok hc
      subst hin
      by_cases h0 : c = 0
      · subst h0
        rw [placeOrderLoop_checkout] at h
        simp only [Except.ok.injEq] at h
        rw [← h]
        simp
      · by_cases hr : 1 ≤ c ∧ c ≤ 4
        · rw [placeOrderLoop_select n t c in1 hr.1 hr.2] at h
          obtain ⟨r2, hr2, hr3⟩ := Except_map_ok h
          have := ih _ _ _ hr2
          rw [← hr3]
          simp only [CafeRes.prepend, List.length_cons]
          omega
        · rw [placeOrderLoop_invalid n t c in1 hmin hmax h0 hr] at h
          obtain ⟨r2, hr2, hr3⟩ := Except_map_ok h
          have := ih _ _ _ hr2
          rw [← hr3]
          simp only [CafeRes.prepend, List.length_cons]
          omega

theorem placeOrderLoop_no_index (f : Nat) :
    ∀ (t : Nat) (input : List Token),
      CafeOrder.placeOrderLoop f t input ≠ .error .index := by
  induction f with
  | zero => intro t input h; simp [CafeOrder.placeOrderLoop] at h
  | succ n ih =>
    intro t input h
    cases hc : cinInt input with
    | error e =>
      simp only [CafeOrder.placeOrderLoop, hc, Except.error.injEq] at h
      have := cinInt_error hc
      rw [h] at this
      exact Fault.noConfusion this
    | ok v =>
      obtain ⟨c, in1⟩ := v
      obtain ⟨hin, hmin, hmax⟩ := cinInt_ok hc
      subst hin
      by_cases h0 : c = 0
      · subst h0
        rw [placeOrderLoop_checkout] at h
        simp at h
      · by_cases hr : 1 ≤ c ∧ c ≤ 4
        · rw [placeOrderLoop_select n t c in1 hr.1 hr.2] at h
          exact ih _ _ (Except_map_error h)
        · rw [placeOrderLoop_invalid n t c in1 hmin hmax h0 hr] at h
          exact ih _ _ (Except_map_error h)

/-! ## One round of the top level menu -/

theorem runLoop_exit {σ : Type} (M : IBedManager σ) (f : Nat) (bm : σ) (rest : List Token) :
    HospitalManagementSystem.runLoop M (f + 1) bm (.num 0 :: rest) =
      .ok { bm := bm,
            out := HospitalManagementSystem.shown ++ [.text "Exiting... Thank you!", .endl],
            input := rest } := by
  have hc : cinInt (.num 0 :: rest) = .ok (0, rest) :=
    cinInt_num 0 _ (by decide) (by decide)
  simp [HospitalManagementSystem.runLoop, hc, HospitalManagementSystem.shown]

theorem runLoop_invalid {σ : Type} (M : IBedManager σ) (f : Nat) (bm : σ) (c : Int)
    (rest : List Token) (hmin : INT_MIN ≤ c) (hmax : c ≤ INT_MAX) (h0 : c ≠ 0)
    (hout : ¬ (1 ≤ c ∧ c ≤ 2)) :
    HospitalManagementSystem.runLoop M (f + 1) bm (.num c :: rest) =
      (HospitalManagementSystem.runLoop M f bm rest).map
        (Res.prepend (HospitalManagementSystem.shown ++
          [.text "Invalid Option! Try again.", .endl])) := by
  have hg : ¬ (c > 0 ∧ toSizeT c ≤ HospitalManagementSystem.services.length) := by
    rw [guard_iff c _ hmax]
    exact hout
  simp only [HospitalManagementSystem.runLoop, cinInt_num c rest hmin hmax, hg, if_false, h0,
    ne_eq, not_false_eq_true, if_true, HospitalManagementSystem.shown]

theorem runLoop_service {σ : Type} (M : IBedManager σ) (f : Nat) (bm : σ) (c : Int)
    (rest : List Token) (h1 : 1 ≤ c) (h2 : c ≤ 2) :
    ∃ svc, HospitalManagementSystem.services.get? (c - 1).toNat = some svc ∧
      HospitalManagementSystem.runLoop M (f + 1) bm (.num c :: rest) =
        (IService.execute M svc bm rest).bind (fun r =>
          (HospitalManagementSystem.runLoop M f r.bm r.input).map
            (Res.prepend (HospitalManagementSystem.shown ++ r.out))) := by
  have hc : ∀ v : Int, 1 ≤ v → v ≤ 2 → cinInt (.num v :: rest) = .ok (v, rest) := by
    intro v hv1 hv2
    apply cinInt_num
    · simp only [INT_MIN]; omega
    · simp only [INT_MAX]; omega
  interval_cases c
  · refine ⟨.hospitalService, rfl, ?_⟩
    cases hs : IService.execute M .hospitalService bm rest with
    | error e =>
      simp [HospitalManagementSystem.runLoop, hc, toSizeT, HospitalManagementSystem.services,
        hs, Except.bind]
    | ok r =>
      simp [HospitalManagementSystem.runLoop, hc, toSizeT, HospitalManagementSystem.services,
        hs, Except.bind, HospitalManagementSystem.shown]
  · refine ⟨.cafeService, rfl, ?_⟩
    cases hs : IService.execute M .cafeService bm rest with
    | error e =>
      simp [HospitalManagementSystem.runLoop, hc, toSizeT, HospitalManagementSystem.services,
        hs, Except.bind]
    | ok r =>
      simp [HospitalManagementSystem.runLoop, hc, toSizeT, HospitalManagementSystem.services,
        hs, Except.bind, HospitalManagementSystem.shown]

theorem service_length {σ : Type} (M : IBedManager σ) (svc : IService) (bm : σ)
    (input : List Token) (r : Res σ) (h : IService.execute M svc bm input = .ok r) :
    r.input.length < input.length := by
  cases svc with
  | hospitalService => exact executeLoop_length M _ bm _ input r h
  | cafeService =>
    simp only [IService.execute, CafeService.execute] at h
    cases hp : CafeOrder.placeOrder 0 input with
    | error e => simp [hp] at h
    | ok r1 =>
      simp only [hp, Except.ok.injEq] at h
      rw [← h]
      exact placeOrderLoop_length _ 0 input r1 hp

theorem service_no_index {σ : Type} (M : IBedManager σ) (svc : IService) (bm : σ)
    (input : List Token) : IService.execute M svc bm input ≠ .error .index := by
  cases svc with
  | hospitalService => exact executeLoop_no_index M _ bm _ input
  | cafeService =>
    intro h
    simp only [IService.execute, CafeService.execute] at h
    cases hp : CafeOrder.placeOrder 0 input with
    | error e =>
      simp only [hp, Except.error.injEq] at h
      rw [h] at hp
      exact placeOrderLoop_no_index _ 0 input hp
    | ok r1 => simp [hp] at h

/-- Fuel beyond the number of tokens left makes no difference to `runLoop`. -/
theorem runLoop_fuel {σ : Type} (M : IBedManager σ) (f1 : Nat) :
    ∀ (f2 : Nat) (bm : σ) (input : List Token), input.length < f1 → input.length < f2 →
      HospitalManagementSystem.runLoop M f1 bm input =
        HospitalManagementSystem.runLoop M f2 bm input := by
  induction f1 with
  | zero => intro f2 bm input h1 _; omega
  | succ n ih =>
    intro f2 bm input h1 h2
    cases f2 with
    | zero => omega
    | succ m =>
      cases hc : cinInt input with
      | error e => simp [HospitalManagementSystem.runLoop, hc]
      | ok v =>
        obtain ⟨c, in1⟩ := v
        obtain ⟨hin, hmin, hmax⟩ := cinInt_ok hc
        subst hin
        simp only [List.length_cons] at h1 h2
        by_cases h0 : c = 0
        · subst h0
          rw [runLoop_exit, runLoop_exit]
        · by_cases hr : 1 ≤ c ∧ c ≤ 2
          · obtain ⟨svc, hs, he⟩ := runLoop_service M n bm c in1 hr.1 hr.2
            obtain ⟨svc2, hs2, he2⟩ := runLoop_service M m bm c in1 hr.1 hr.2
            rw [hs] at hs2
            cases hs2
            rw [he, he2]
            cases hx : IService.execute M svc bm in1 with
            | error e => rfl
            | ok r =>
              have hl := service_length M svc bm in1 r hx
              simp only [Except.bind]
              rw [ih m r.bm r.input (by omega) (by omega)]
          · rw [runLoop_invalid M n bm c in1 hmin hmax h0 hr,
              runLoop_invalid M m bm c in1 hmin hmax h0 hr,
              ih m bm in1 (by omega) (by omega)]

theorem runLoop_eq_run {σ : Type} (M : IBedManager σ) (f : Nat) (bm : σ) (input : List Token)
    (h : input.length < f) :
    HospitalManagementSystem.runLoop M f bm input = HospitalManagementSystem.run M bm input :=
  runLoop_fuel M f (input.length + 1) bm input h (Nat.lt_succ_self _)

theorem runLoop_no_index {σ : Type} (M : IBedManager σ) (f : Nat) :
    ∀ (bm : σ) (input : List Token),
      HospitalManagementSystem.runLoop M f bm input ≠ .error .index := by
  induction f with
  | zero => intro bm input h; simp [HospitalManagementSystem.runLoop] at h
  | succ n ih =>
    intro bm input h
    cases hc : cinInt input with
    | error e =>
      simp only [HospitalManagementSystem.runLoop, hc, Except.error.injEq] at h
      have := cinInt_error hc
      rw [h] at this
      exact Fault.noConfusion this
    | ok v =>
      obtain ⟨c, in1⟩ := v
      obtain ⟨hin, hmin, hmax⟩ := cinInt_ok hc
      subst hin
      by_cases h0 : c = 0
      · subst h0
        rw [runLoop_exit] at h
        simp at h
      · by_cases hr : 1 ≤ c ∧ c ≤ 2
        · obtain ⟨svc, _, he⟩ := runLoop_service M n bm c in1 hr.1 hr.2
          rw [he] at h
          cases hx : IService.execute M svc bm in1 with
          | error e =>
            simp only [hx, Except.bind, Except.error.injEq] at h
            rw [h] at hx
            exact service_no_index M svc bm in1 hx
          | ok r =>
            simp only [hx, Except.bind] at h
            exact ih _ _ (Except_map_error h)
        · rw [runLoop_invalid M n bm c in1 hmin hmax h0 hr] at h
          exact ih _ _ (Except_map_error h)

/-! ## The top level menu -/

theorem run_exit {σ : Type} (M : IBedManager σ) (bm : σ) (rest : List Token) :
    HospitalManagementSystem.run M bm (.num 0 :: rest) =
      .ok { bm := bm,
            out := HospitalManagementSystem.shown ++ [.text "Exiting... Thank you!", .endl],
            input := rest } := by
  simp only [HospitalManagementSystem.run, List.length_cons]
  exact runLoop_exit M _ bm rest

theorem run_invalid {σ : Type} (M : IBedManager σ) (bm : σ) (c : Int) (rest : List Token)
    (hmin : INT_MIN ≤ c) (hmax : c ≤ INT_MAX) (h0 : c ≠ 0) (hout : ¬ (1 ≤ c ∧ c ≤ 2)) :
    HospitalManagementSystem.run M bm (.num c :: rest) =
      (HospitalManagementSystem.run M bm rest).map
        (Res.prepend (HospitalManagementSystem.shown ++
          [.text "Invalid Option! Try again.", .endl])) := by
  simp only [HospitalManagementSystem.run, List.length_cons]
  exact runLoop_invalid M _ bm c rest hmin hmax h0 hout

theorem run_service {σ : Type} (M : IBedManager σ) (bm : σ) (c : Int) (rest : List Token)
    (h1 : 1 ≤ c) (h2 : c ≤ 2) :
    ∃ svc, HospitalManagementSystem.services.get? (c - 1).toNat = some svc ∧
      HospitalManagementSystem.run M bm (.num c :: rest) =
        (IService.execute M svc bm rest).bind (fun r =>
          (HospitalManagementSystem.run M r.bm r.input).map
            (Res.prepend (HospitalManagementSystem.shown ++ r.out))) := by
  obtain ⟨svc, hs, he⟩ := runLoop_service M (rest.length + 1) bm c rest h1 h2
  refine ⟨svc, hs, ?_⟩
  simp only [HospitalManagementSystem.run, List.length_cons] at he ⊢
  rw [he]
  cases hx : IService.execute M svc bm rest with
  | error e => rfl
  | ok r =>
    have hl := service_length M svc bm rest r hx
    simp only [Except.bind]
    rw [runLoop_fuel M (rest.length + 1) (r.input.length + 1) r.bm r.input (by omega)
      (Nat.lt_succ_self _)]

/-- C6: in `HospitalManagementSystem::run` with its two services, an `int` choice that is
neither 0 nor 1 nor 2 runs no service: "Invalid Option! Try again." is printed, the run
goes on from the same bed manager state with the welcome screen shown again, and when
the next choice is 0 the run ends with that state.  A choice in 1..2 executes
`services[choice - 1]` on the input that follows and the run goes on from what the
service left.  Choice 0 ends the loop and prints the farewell line. -/
theorem run_dispatch {σ : Type} (M : IBedManager σ) (bm : σ) (c : Int) (rest : List Token)
    (hmin : INT_MIN ≤ c) (hmax : c ≤ INT_MAX) :
    (c ≠ 0 ∧ ¬ (1 ≤ c ∧ c ≤ 2) →
      HospitalManagementSystem.run M bm (.num c :: rest) =
        (HospitalManagementSystem.run M bm rest).map
          (Res.prepend (WelcomeScreen.display ++ [.text "Enter Your Choice: ", .endl] ++
            [.text "Invalid Option! Try again.", .endl])) ∧
      HospitalManagementSystem.run M bm (.num c :: .num 0 :: rest) =
        .ok { bm := bm,
              out := WelcomeScreen.display ++ [.text "Enter Your Choice: ", .endl] ++
                [.text "Invalid Option! Try again.", .endl] ++
                (WelcomeScreen.display ++ [.text "Enter Your Choice: ", .endl] ++
                  [.text "Exiting... Thank you!", .endl]),
              input := rest }) ∧
    (1 ≤ c ∧ c ≤ 2 →
      ∃ svc, HospitalManagementSystem.services.get? (c - 1).toNat = some svc ∧
        HospitalManagementSystem.run M bm (.num c :: rest) =
          (IService.execute M svc bm rest).bind (fun r =>
            (HospitalManagementSystem.run M r.bm r.input).map
              (Res.prepend (WelcomeScreen.display ++ [.text "Enter Your Choice: ", .endl] ++
                r.out)))) ∧
    HospitalManagementSystem.run M bm (.num 0 :: rest) =
      .ok { bm := bm,
            out := WelcomeScreen.display ++ [.text "Enter Your Choice: ", .endl] ++
              [.text "Exiting... Thank you!", .endl],
            input := rest } := by
  refine ⟨?_, ?_, run_exit M bm rest⟩
  · rintro ⟨h0, hout⟩
    refine ⟨run_invalid M bm c rest hmin hmax h0 hout, ?_⟩
    rw [run_invalid M bm c _ hmin hmax h0 hout, run_exit]
    rfl
  · rintro ⟨h1, h2⟩
    exact run_service M bm c rest h1 h2

theorem run_dispatch_witness :
    (INT_MIN ≤ 3 ∧ (3 : Int) ≤ INT_MAX) ∧ ((3 : Int) ≠ 0 ∧ ¬ (1 ≤ (3 : Int) ∧ (3 : Int) ≤ 2)) ∧
    main [.num 3, .num 0] =
      .ok { bm := 500,
            out := WelcomeScreen.display ++ [.text "Enter Your Choice: ", .endl] ++
              [.text "Invalid Option! Try again.", .endl] ++
              (WelcomeScreen.display ++ [.text "Enter Your Choice: ", .endl] ++
                [.text "Exiting... Thank you!", .endl]),
            input := [] } ∧
    (main [.num 1, .num 1, .word "Ann", .num 30, .num 7, .num 0, .num 0]).map
      (fun r => (r.bm, r.input)) = .ok (499, []) :=
  ⟨by decide, by decide,
   ((run_dispatch GeneralBedManager 500 3 [] (by decide) (by decide)).1 (by decide)).2,
   by decide⟩

/-! ## Index safety -/

/-- C10: at both dispatch sites the index is in range whenever the element is read.  For
every `int` choice that passes the guard `choice > 0 && choice <= size()` (the comparison
with `size()` made in `size_t`), `choice - 1` lies in `[0, size - 1]` and is the index
used, for the menu of four items and for the vector of two services; a choice that is
not positive fails the guard.  Accordingly neither `placeOrder` nor `run` ever reads
outside its vector, whatever the input. -/
theorem dispatch_index_safe {σ : Type} (M : IBedManager σ) (bm : σ) (total : Nat)
    (input : List Token) (choice : Int) (hmax : choice ≤ INT_MAX) :
    ((choice > 0 ∧ toSizeT choice ≤ CafeMenu.menu.length) →
      0 ≤ choice - 1 ∧ choice - 1 ≤ (CafeMenu.menu.length : Int) - 1 ∧
      (toSizeT (choice - 1) : Int) = choice - 1 ∧
      (CafeMenu.menu.get? (toSizeT (choice - 1))).isSome = true) ∧
    ((choice > 0 ∧ toSizeT choice ≤ HospitalManagementSystem.services.length) →
      0 ≤ choice - 1 ∧ choice - 1 ≤ (HospitalManagementSystem.services.length : Int) - 1 ∧
      (toSizeT (choice - 1) : Int) = choice - 1 ∧
      (HospitalManagementSystem.services.get? (toSizeT (choice - 1))).isSome = true) ∧
    (choice ≤ 0 →
      ¬ (choice > 0 ∧ toSizeT choice ≤ CafeMenu.menu.length) ∧
      ¬ (choice > 0 ∧ toSizeT choice ≤ HospitalManagementSystem.services.length)) ∧
    CafeOrder.placeOrder total input ≠ .error .index ∧
    HospitalManagementSystem.run M bm input ≠ .error .index := by
  refine ⟨?_, ?_, ?_, placeOrderLoop_no_index _ total input, runLoop_no_index M _ bm input⟩
  · intro hg
    rw [guard_iff choice _ hmax] at hg
    have hlen : CafeMenu.menu.length = 4 := rfl
    rw [hlen] at hg ⊢
    obtain ⟨h1, h4⟩ := hg
    have h4int : choice ≤ 4 := by exact_mod_cast h4
    interval_cases choice <;> decide
  · intro hg
    rw [guard_iff choice _ hmax] at hg
    have hlen : HospitalManagementSystem.services.length = 2 := rfl
    rw [hlen] at hg ⊢
    obtain ⟨h1, h2⟩ := hg
    have h2int : choice ≤ 2 := by exact_mod_cast h2
    interval_cases choice <;> decide
  · intro hneg
    exact ⟨fun h => absurd h.1 (not_lt.mpr hneg), fun h => absurd h.1 (not_lt.mpr hneg)⟩

theorem dispatch_index_safe_witness :
    (4 : Int) ≤ INT_MAX ∧
    ((4 : Int) > 0 ∧ toSizeT 4 ≤ CafeMenu.menu.length) ∧
    ((0 : Int) ≤ 4 - 1 ∧ (4 : Int) - 1 ≤ (CafeMenu.menu.length : Int) - 1 ∧
      (toSizeT (4 - 1) : Int) = 4 - 1 ∧
      (CafeMenu.menu.get? (toSizeT (4 - 1))).isSome = true) ∧
    ((-1 : Int) ≤ INT_MAX ∧ (-1 : Int) ≤ 0) ∧
    toSizeT (-1) = 18446744073709551615 ∧
    ¬ ((-1 : Int) > 0 ∧ toSizeT (-1) ≤ CafeMenu.menu.length) :=
  ⟨by decide, by decide,
   (dispatch_index_safe GeneralBedManager 500 0 [] 4 (by decide)).1 (by decide),
   by decide, by decide,
   ((dispatch_index_safe GeneralBedManager 500 0 [] (-1) (by decide)).2.2.1
      (by decide)).1⟩

/-! ## The fuel handed out by the entry points is never used up -/

theorem placeOrderLoop_no_fuel (f : Nat) :
    ∀ (t : Nat) (input : List Token), input.length < f →
      CafeOrder.placeOrderLoop f t input ≠ .error .fuel := by
  induction f with
  | zero => intro t input hl; omega
  | succ n ih =>
    intro t input hl h
    cases hc : cinInt input with
    | error e =>
      simp only [CafeOrder.placeOrderLoop, hc, Except.error.injEq] at h
      have := cinInt_error hc
      rw [h] at this
      exact Fault.noConfusion this
    | ok v =>
      obtain ⟨c, in1⟩ := v
      obtain ⟨hin, hmin, hmax⟩ := cinInt_ok hc
      subst hin
      simp only [List.length_cons] at hl
      by_cases h0 : c = 0
      · subst h0
        rw [placeOrderLoop_checkout] at h
        simp at h
      · by_cases hr : 1 ≤ c ∧ c ≤ 4
        · rw [placeOrderLoop_select n t c in1 hr.1 hr.2] at h
          exact ih _ _ (by omega) (Except_map_error h)
        · rw [placeOrderLoop_invalid n t c in1 hmin hmax h0 hr] at h
          exact ih _ _ (by omega) (Except_map_error h)

theorem executeLoop_no_fuel {σ : Type} (M : IBedManager σ) (f : Nat) :
    ∀ (bm : σ) (p : Patient) (input : List Token), input.length < f →
      HospitalService.executeLoop M f bm p input ≠ .error .fuel := by
  induction f with
  | zero => intro bm p input hl; omega
  | succ n ih =>
    intro bm p input hl h
    simp only [HospitalService.executeLoop] at h
    cases hc : cinInt input with
    | error e =>
      simp only [hc, Except.error.injEq] at h
      have := cinInt_error hc
      rw [h] at this
      exact Fault.noConfusion this
    | ok v =>
      obtain ⟨c, in1⟩ := v
      have hin := (cinInt_ok hc).1
      subst hin
      simp only [List.length_cons] at hl
      simp only [hc] at h
      by_cases h1 : c = 1
      · subst h1
        simp only [if_true] at h
        cases hp : p.registerPatient M bm in1 with
        | error e =>
          simp only [hp, Except.error.injEq] at h
          have := registerPatient_error M bm p in1 e hp
          rw [h] at this
          exact Fault.noConfusion this
        | ok w =>
          obtain ⟨q, r1⟩ := w
          have hlen := registerPatient_length M bm p q in1 r1 hp
          simp only [hp, ne_eq, one_ne_zero, not_false_eq_true, if_true] at h
          exact ih _ _ _ (by omega) (Except_map_error h)
      · by_cases h2 : c = 2
        · subst h2
          simp at h
          exact ih _ _ _ (by omega) (Except_map_error h)
        · by_cases h0 : c = 0
          · subst h0
            simp at h
          · simp [h1, h2, h0] at h
            exact ih _ _ _ (by omega) (Except_map_error h)

theorem service_no_fuel {σ : Type} (M : IBedManager σ) (svc : IService) (bm : σ)
    (input : List Token) : IService.execute M svc bm input ≠ .error .fuel := by
  cases svc with
  | hospitalService => exact executeLoop_no_fuel M _ bm _ input (Nat.lt_succ_self _)
  | cafeService =>
    intro h
    simp only [IService.execute, CafeService.execute] at h
    cases hp : CafeOrder.placeOrder 0 input with
    | error e =>
      simp only [hp, Except.error.injEq] at h
      rw [h] at hp
      exact placeOrderLoop_no_fuel _ 0 input (Nat.lt_succ_self _) hp
    | ok r1 => simp [hp] at h

theorem runLoop_no_fuel {σ : Type} (M : IBedManager σ) (f : Nat) :
    ∀ (bm : σ) (input : List Token), input.length < f →
      HospitalManagementSystem.runLoop M f bm input ≠ .error .fuel := by
  induction f with
  | zero => intro bm input hl; omega
  | succ n ih =>
    intro bm input hl h
    cases hc : cinInt input with
    | error e =>
      simp only [HospitalManagementSystem.runLoop, hc, Except.error.injEq] at h
      have := cinInt_error hc
      rw [h] at this
      exact Fault.noConfusion this
    | ok v =>
      obtain ⟨c, in1⟩ := v
      obtain ⟨hin, hmin, hmax⟩ := cinInt_ok hc
      subst hin
      simp only [List.length_cons] at hl
      by_cases h0 : c = 0
      · subst h0
        rw [runLoop_exit] at h
        simp at h
      · by_cases hr : 1 ≤ c ∧ c ≤ 2
        · obtain ⟨svc, _, he⟩ := runLoop_service M n bm c in1 hr.1 hr.2
          rw [he] at h
          cases hx : IService.execute M svc bm in1 with
          | error e =>
            simp only [hx, Except.bind, Except.error.injEq] at h
            rw [h] at hx
            exact service_no_fuel M svc bm in1 hx
          | ok r =>
            have hlen := service_length M svc bm in1 r hx
            simp only [hx, Except.bind] at h
            exact ih _ _ (by omega) (Except_map_error h)
        · rw [runLoop_invalid M n bm c in1 hmin hmax h0 hr] at h
          exact ih _ _ (by omega) (Except_map_error h)

/-- The three entry points never stop for lack of fuel: a run either returns or stops at
a read the input cannot serve. -/
theorem entry_points_have_fuel {σ : Type} (M : IBedManager σ) (bm : σ) (total : Nat)
    (input : List Token) :
    CafeOrder.placeOrder total input ≠ .error .fuel ∧
    HospitalService.execute M bm input ≠ .error .fuel ∧
    HospitalManagementSystem.run M bm input ≠ .error .fuel :=
  ⟨placeOrderLoop_no_fuel _ total input (Nat.lt_succ_self _),
   executeLoop_no_fuel M _ bm _ input (Nat.lt_succ_self _),
   runLoop_no_fuel M _ bm input (Nat.lt_succ_self _)⟩

end Hospital
